import Mathlib

/-! ## Definitions -/

/-!
Verification of the assignment-and-compression engine of
`.devenv/clangd/generate_clangd.py`.

The Python core is shallowly embedded as follows.

* Python `str` is Lean `String`; string manipulation is performed on the
  underlying `List Char` (`String.data`), which matches Python's sequence
  of code points.  Python's lexicographic string comparison is embedded
  as `listLtB` / `strLtB` on code points.
* Python `dict` and `set` are embedded as association lists and lists.
  A Python `dict` compares equal regardless of insertion order and every
  consumer in this program reads dictionaries either as sets or after
  sorting, so dictionaries whose order is never observed are kept in a
  canonical (sorted) order; this is noted at each definition.
* `TrieNode` (children dict, terminal set, derived label) is the nested
  inductive `TrieNode`.  `annotate_labels` mutates `node.label` to exactly
  the value computed bottom-up from the subtree, so it is embedded as the
  pure function `labelOf`; `select_nodes` reads the annotated labels,
  which is embedded as `selectNodes` calling `labelOf`.
* File I/O (reading compile_commands.json documents) is outside the model:
  `loadAssignments` takes the list of (file, database-key) claim pairs that
  the reading loop of `load_assignments` produces, and `buildFragments`
  takes the list of database keys of the discovered databases.
-/

/-! ### Code-point comparison (Python string `<`) -/

/-- Lexicographic comparison of char lists by code point, as Python
compares strings. -/
def listLtB : List Char → List Char → Bool
  | [], [] => false
  | [], _ :: _ => true
  | _ :: _, [] => false
  | a :: as, b :: bs =>
    if a.toNat < b.toNat then true
    else if b.toNat < a.toNat then false
    else listLtB as bs

/-- Python `a < b` on strings. -/
def strLtB (a b : String) : Bool := listLtB a.data b.data

/-- Python `a <= b` on strings. -/
def strLeB (a b : String) : Bool := strLtB a b || a == b

/-! ### Generic insertion sort (models Python `sorted` with a key) -/

/-- Insert an element into a le-sorted list (stable). -/
def insertLe {α : Type} (le : α → α → Bool) (a : α) : List α → List α
  | [] => [a]
  | b :: t => if le a b then a :: b :: t else b :: insertLe le a t

/-- Insertion sort by a boolean `le`; models Python `sorted`. -/
def sortByLe {α : Type} (le : α → α → Bool) : List α → List α
  | [] => []
  | a :: t => insertLe le a (sortByLe le t)

/-- Sorted deduplication: canonical representation of a Python `set` of
strings (also used for dict key sets whose order is unobservable). -/
def sortedDedup (l : List String) : List String := sortByLe strLeB l.dedup

/-! ### Path splitting and joining (Python `"p".split("/")` and `"/".join(parts)`) -/

/-- Split a char list at every `'/'`; models Python `str.split("/")`
(`"".split("/") = [""]`, empty segments are kept). -/
def splitSl : List Char → List (List Char)
  | [] => [[]]
  | c :: cs =>
    if c = '/' then [] :: splitSl cs
    else
      match splitSl cs with
      | [] => [[c]]
      | p :: ps => (c :: p) :: ps

/-- Join char-list segments with `'/'`; models Python `"/".join`. -/
def joinSl : List (List Char) → List Char
  | [] => []
  | [p] => p
  | p :: ps => p ++ '/' :: joinSl ps

/-- Python `rel_file.split("/")` on strings. -/
def splitParts (s : String) : List String := (splitSl s.data).map String.mk

/-- Python `"/".join(current_parts)` on strings. -/
def joinParts (l : List String) : String := String.mk (joinSl (l.map String.data))

/-! ### `re.escape` and the two produced pattern shapes -/

/-- The characters Python `re.escape` (3.7+) escapes with a backslash. -/
def specialChars : List Char :=
  ['(', ')', '[', ']', '{', '}', '?', '*', '+', '-', '|', '^', '$', '\\', '.', '&', '~', '#',
   ' ', '\t', '\n', '\r', '\x0b', '\x0c']

/-- Escape one character as `re.escape` does. -/
def escChar (c : Char) : List Char := if c ∈ specialChars then ['\\', c] else [c]

/-- `re.escape` on a char list. -/
def escapeL (l : List Char) : List Char := (l.map escChar).flatten

/-- Python `re.escape(path)`. -/
def reEscape (s : String) : String := String.mk (escapeL s.data)

/-- `regex_for_path` from the source: exact match for a file leaf,
prefix match (`path/` then anything) for a directory boundary. -/
def regexForPath (path : String) (isFileLeaf : Bool) : String :=
  if isFileLeaf then "^" ++ reEscape path ++ "$"
  else "^" ++ reEscape path ++ "/.*"

/-- Decoder inverting `escapeL`; used only to prove injectivity. -/
def decodeL : List Char → Option (List Char)
  | [] => some []
  | c :: rest =>
    if c = '\\' then
      match rest with
      | [] => none
      | d :: r2 => (decodeL r2).map (d :: ·)
    else
      (decodeL rest).map (c :: ·)

/-- Matching semantics for the two regex shapes this generator emits.
Modelled from the spec: a leaf pattern `^E$` is an exact match of the
escaped literal path, and a directory pattern `^E/.*` matches the literal
path followed by a path separator and anything beneath it.  (The regex
engine that consumes the rendered `.clangd` is external to the repository;
this is its behaviour restricted to the produced pattern grammar.) -/
def regexMatchesL (pat s : List Char) : Bool :=
  (pat == '^' :: (escapeL s ++ ['$'])) ||
  (List.range (s.length + 1)).any (fun i =>
    pat == '^' :: (escapeL (s.take i) ++ ['/', '.', '*']) && ((s.drop i).head? == some '/'))

/-- Matching of a rendered pattern against a root-relative path. -/
def regexMatches (pat s : String) : Bool := regexMatchesL pat.data s.data

/-! ### The path-compression trie

`TrieNode` from the source: a children dict (one path segment per edge),
a terminal database set, and the derived label.  The children dict is kept
in a canonical order, sorted strictly by key: the Python dict is in
insertion order, but no consumer observes that order — `annotate_labels`
reads the children as a set and `select_nodes` iterates
`sorted(node.children.items())` — so the sorted association list is an
observation-equivalent embedding in which Python's `sorted(...)` is the
identity.  The terminal set is kept in insertion order exactly as a Python
set built only by `add` is iterated-order-insensitively consumed (it is
only ever read as a set by `annotate_labels`). -/
inductive TrieNode where
  | mk (children : List (String × TrieNode)) (terminal_dbs : List String)

/-- The children association list of a node. -/
def TrieNode.children : TrieNode → List (String × TrieNode)
  | .mk cs _ => cs

/-- The terminal database keys recorded at a node. -/
def TrieNode.terminal_dbs : TrieNode → List String
  | .mk _ ts => ts

/-- `TrieNode()` in the source: fresh node with no children and no
terminal databases. -/
def emptyNode : TrieNode := .mk [] []

/-- `set.add`: append an element unless already present. -/
def setAdd (x : String) (l : List String) : List String :=
  if x ∈ l then l else l ++ [x]

/-- Apply `f` to the child at key `k`, creating it as `f emptyNode` if
absent; models `node.children.setdefault(part, TrieNode())` followed by
descending into that child.  Insertion keeps the canonical key order. -/
def updateChild (f : TrieNode → TrieNode) (k : String) :
    List (String × TrieNode) → List (String × TrieNode)
  | [] => [(k, f emptyNode)]
  | (k', c) :: rest =>
    if k = k' then (k', f c) :: rest
    else if strLtB k k' then (k, f emptyNode) :: (k', c) :: rest
    else (k', c) :: updateChild f k rest

/-- `insert_path` from the source: walk/create one node per path segment
and record the owning database key in the final node's terminal set. -/
def insertPath : TrieNode → List String → String → TrieNode
  | .mk cs ts, [], db => .mk cs (setAdd db ts)
  | .mk cs ts, p :: ps, db => .mk (updateChild (fun c => insertPath c ps db) p cs) ts

mutual
/-- `annotate_labels` from the source, as the pure bottom-up label value:
collect the terminal set together with every child's label (`None`
becoming the sentinel `"__MIXED__"`); if that set is a singleton other
than the sentinel, it is the label, otherwise the label is `None`. -/
def labelOf : TrieNode → Option String
  | .mk cs ts =>
    match (ts ++ childLabels cs).dedup with
    | [l] => if l = "__MIXED__" then none else some l
    | _ => none

/-- The labels contributed by a children list, `None` replaced by the
`"__MIXED__"` sentinel. -/
def childLabels : List (String × TrieNode) → List String
  | [] => []
  | (_, c) :: rest =>
    (match labelOf c with
     | none => "__MIXED__"
     | some l => l) :: childLabels rest
end

/-- `NodeSelection` from the source. -/
structure NodeSelection where
  path : String
  is_file_leaf : Bool
  db : String
deriving Repr, DecidableEq

mutual
/-- `select_nodes` from the source: emit a boundary selection when the
node's label is defined and differs from the inherited parent label and
stop descending; otherwise recurse into the children in sorted key order
(the canonical child order of this embedding) passing the node's own
label. -/
def selectNodes : TrieNode → List String → Option String → List NodeSelection
  | .mk cs ts, parts, parentLabel =>
    match labelOf (.mk cs ts) with
    | some l =>
      if some l = parentLabel then selectKids cs parts (some l)
      else [⟨joinParts parts, cs.isEmpty, l⟩]
    | none => selectKids cs parts none

/-- The recursion of `select_nodes` over `sorted(node.children.items())`. -/
def selectKids : List (String × TrieNode) → List String → Option String → List NodeSelection
  | [], _, _ => []
  | (k, c) :: rest, parts, ownLabel =>
    selectNodes c (parts ++ [k]) ownLabel ++ selectKids rest parts ownLabel
end

mutual
/-- Proof-level mirror of `selectNodes` that returns the path still as a
segment list (`select_nodes` joins it with `"/"` at emission time). -/
def selParts : TrieNode → List String → Option String → List (List String × Bool × String)
  | .mk cs ts, parts, parentLabel =>
    match labelOf (.mk cs ts) with
    | some l =>
      if some l = parentLabel then selPartsKids cs parts (some l)
      else [(parts, cs.isEmpty, l)]
    | none => selPartsKids cs parts none

/-- Children recursion of `selParts`. -/
def selPartsKids : List (String × TrieNode) → List String → Option String →
    List (List String × Bool × String)
  | [], _, _ => []
  | (k, c) :: rest, parts, ownLabel =>
    selParts c (parts ++ [k]) ownLabel ++ selPartsKids rest parts ownLabel
end

mutual
/-- All (relative path segments, database) pairs recorded in a subtree. -/
def filesOf : TrieNode → List (List String × String)
  | .mk cs ts => ts.map (fun d => ([], d)) ++ kidFiles cs

/-- Files of a children list, each path extended by its child key. -/
def kidFiles : List (String × TrieNode) → List (List String × String)
  | [] => []
  | (k, c) :: rest => (filesOf c).map (fun fd => (k :: fd.1, fd.2)) ++ kidFiles rest
end

/-- The label contribution of a child node (`None` becomes the sentinel). -/
def labelStr (c : TrieNode) : String :=
  match labelOf c with
  | none => "__MIXED__"
  | some l => l

/-! ### Structural invariants of tries built by insertion -/

mutual
/-- Every node of the subtree has a terminal entry or a child
(equivalently: every subtree contains at least one file). -/
def inhabT : TrieNode → Prop
  | .mk cs ts => (ts ≠ [] ∨ cs ≠ []) ∧ inhabKids cs

/-- `inhabT` for every child of a children list. -/
def inhabKids : List (String × TrieNode) → Prop
  | [] => True
  | (_, c) :: rest => inhabT c ∧ inhabKids rest
end

mutual
/-- Children keys are strictly sorted (hence duplicate-free) at every
node: the canonical-dictionary invariant of this embedding. -/
def keysOKT : TrieNode → Prop
  | .mk cs _ => (cs.map Prod.fst).Pairwise (fun a b => strLtB a b = true) ∧ keysOKKids cs

/-- `keysOKT` for every child of a children list. -/
def keysOKKids : List (String × TrieNode) → Prop
  | [] => True
  | (_, c) :: rest => keysOKT c ∧ keysOKKids rest
end

mutual
/-- No child key anywhere in the subtree contains a slash (keys are path
segments produced by `split("/")`). -/
def slashOKT : TrieNode → Prop
  | .mk cs _ => (∀ kc ∈ cs, '/' ∉ (kc.1 : String).data) ∧ slashOKKids cs

/-- `slashOKT` for every child of a children list. -/
def slashOKKids : List (String × TrieNode) → Prop
  | [] => True
  | (_, c) :: rest => slashOKT c ∧ slashOKKids rest
end


/-! ### Pipeline definitions -/

/-- Build the trie from the final assignment map
(`build_fragments` lines: insert each `rel_file.split("/")`).  The
assignment map is an association list with unique file keys; Python
iterates `assignments.items()`, and since no consumer observes the
children-dict order the fold order is irrelevant to every observation. -/
def trieOf (A : List (String × String)) : TrieNode :=
  A.foldl (fun t fd => insertPath t (splitParts fd.1) fd.2) emptyNode

/-- `annotate_labels(trie)` then `select_nodes(trie, [], None)`. -/
def selsOf (A : List (String × String)) : List NodeSelection :=
  selectNodes (trieOf A) [] none

/-- The patterns rendered for one database from the boundary selections
(`build_fragments` before fallback, dedup and ordering). -/
def dbPatterns (A : List (String × String)) (db : String) : List String :=
  ((selsOf A).filter (fun s => s.db == db)).map
    (fun s => regexForPath s.path s.is_file_leaf)

/-- Python tuple order on the sort key `(-len(p), p)` used both by the
conflict tie-break and by the per-database pattern ordering. -/
def dbKeyLe (a b : String) : Bool :=
  decide (b.length < a.length) || (a.length == b.length && strLeB a b)

/-- `sorted(dbs, key=lambda p: (-len(p), p))[0]`: the quickest way to the
minimum of the tie-break order.  (Python raises on an empty set; the
default is never reached because claimant sets are nonempty.) -/
def chooseDb (dbs : List String) : String := (sortByLe dbKeyLe dbs).headD ""

/-- Association-list lookup (Python dict subscript). -/
def lookupA {α : Type} (k : String) : List (String × α) → Option α
  | [] => none
  | (k', v) :: rest => if k = k' then some v else lookupA k rest

/-- The file keys of `file_to_dbs`, canonically sorted (the grouping dict
is only consumed as a map, so its insertion order is unobservable). -/
def claimFiles (claims : List (String × String)) : List String :=
  sortedDedup (claims.map Prod.fst)

/-- The claimant set `file_to_dbs[rel_file]` of one file, canonically
sorted (a Python set). -/
def claimants (claims : List (String × String)) (f : String) : List String :=
  sortedDedup ((claims.filter (fun c => c.1 == f)).map Prod.snd)

/-- The resolution loop of `load_assignments`: from the multiset of
(file, database-key) claims, the total single-valued assignment map and
the conflict map (files with more than one claimant). -/
def loadAssignments (claims : List (String × String)) :
    List (String × String) × List (String × List String) :=
  ((claimFiles claims).map (fun f => (f, chooseDb (claimants claims f))),
   ((claimFiles claims).filter (fun f => 1 < (claimants claims f).length)).map
     (fun f => (f, claimants claims f)))

/-- `db_to_regexes[db].append(v)` on an association list
(`defaultdict(list)` keyed in first-appearance order). -/
def groupAdd (acc : List (String × List String)) (k : String) (v : String) :
    List (String × List String) :=
  match acc with
  | [] => [(k, [v])]
  | (k', vs) :: rest => if k = k' then (k', vs ++ [v]) :: rest else (k', vs) :: groupAdd rest k v

/-- `build_fragments` from the source: group the rendered selection
patterns by database, add a prefix fallback for every discovered database
key with no entry, deduplicate and order each list by `(-len, lex)`, and
return the groups sorted by database key. -/
def buildFragments (dbKeys : List String) (A : List (String × String)) :
    List (String × List String) :=
  let base := (selsOf A).foldl
    (fun acc s => groupAdd acc s.db (regexForPath s.path s.is_file_leaf)) []
  let withFallback := dbKeys.foldl
    (fun acc k =>
      if (lookupA k acc).isSome then acc
      else acc ++ [(k, ["^" ++ reEscape k ++ "/.*"])]) base
  let deduped := withFallback.map (fun kv => (kv.1, sortByLe dbKeyLe kv.2.dedup))
  sortByLe (fun a b => strLeB a.1 b.1) deduped

/-- `prefix[:-1] if prefix.endswith("/") else prefix`. -/
def stripTrailingSlash (p : String) : String :=
  if p.data.getLast? = some '/' then String.mk p.data.dropLast else p

/-- `render_clangd` from the source: the multi-document `.clangd` text. -/
def renderClangd (dbToRegexes : List (String × List String))
    (conflicts : List (String × List String))
    (excludedPrefixes backgroundSkips : List String) : String :=
  let headerLines :=
    ["# This file is auto-generated by .devenv/clangd/generate_clangd.py"] ++
    (if conflicts.isEmpty then [] else
      ["# Conflicts: " ++ toString conflicts.length ++
         " files were found in multiple compile databases.",
       "# The generator selected one database deterministically per file."]) ++
    [""]
  let bgBlocks := backgroundSkips.map (fun p =>
    ["If:",
     "  PathMatch: ^" ++ reEscape (stripTrailingSlash p) ++ "/.*",
     "Index:",
     "  Background: Skip"])
  let exLines :=
    if excludedPrefixes.isEmpty then [] else
      ["  PathExclude: ^(?:" ++
        String.intercalate "|"
          (excludedPrefixes.map (fun p => reEscape (stripTrailingSlash p) ++ "(?:/.*)?")) ++
        ")$"]
  let dbBlocks := dbToRegexes.map (fun kv =>
    ["If:", "  PathMatch: " ++ String.intercalate "|" kv.2] ++ exLines ++
    ["CompileFlags:", "  CompilationDatabase: " ++ kv.1])
  let body :=
    match bgBlocks ++ dbBlocks with
    | [] => []
    | b :: rest => b ++ (rest.map (fun blk => "---" :: blk)).flatten
  String.intercalate "\n" (headerLines ++ body ++ [""])

/-- The specification's description of a node label: a single key shared
by the terminal set and by every child's label, at a node that has a
terminal entry or a child. -/
def specAgree (n : TrieNode) (k : String) : Prop :=
  (∀ d ∈ n.terminal_dbs, d = k) ∧ (∀ kc ∈ n.children, labelOf kc.2 = some k) ∧
    (n.terminal_dbs ≠ [] ∨ n.children ≠ [])

/-- Segment-list prefix (decidably, via `List.isPrefixOf`). -/
def segPref (P Q : List String) : Prop := P.isPrefixOf Q = true

instance segPrefDecidable (P Q : List String) : Decidable (segPref P Q) :=
  inferInstanceAs (Decidable (P.isPrefixOf Q = true))

/-- One path overlaps another when it equals it or is a `/`-separated
ancestor of it (the sense in which two emitted boundary patterns cover a
common path). -/
def pathPref (p q : String) : Prop := p = q ∨ ∃ r, q.data = p.data ++ '/' :: r

/-! ## Theorems -/

theorem listLtB_irrefl (l : List Char) : listLtB l l = false := by
  induction l with
  | nil => rfl
  | cons a as ih => simp [listLtB, ih]

theorem listLtB_asymm {a b : List Char} (h : listLtB a b = true) : listLtB b a = false := by
  induction a generalizing b with
  | nil =>
    cases b with
    | nil => simp [listLtB] at h
    | cons y ys => simp [listLtB]
  | cons x xs ih =>
    cases b with
    | nil => simp [listLtB] at h
    | cons y ys =>
      by_cases h1 : x.toNat < y.toNat
      · simp [listLtB, show ¬ y.toNat < x.toNat by omega, h1]
      · by_cases h2 : y.toNat < x.toNat
        · simp [listLtB, h1, h2] at h
        · simp [listLtB, h1, h2] at h ⊢
          exact ih h

theorem listLtB_total (a b : List Char) :
    listLtB a b = true ∨ listLtB b a = true ∨ a = b := by
  induction a generalizing b with
  | nil =>
    cases b with
    | nil => right; right; rfl
    | cons y ys => left; simp [listLtB]
  | cons x xs ih =>
    cases b with
    | nil => right; left; simp [listLtB]
    | cons y ys =>
      by_cases h1 : x.toNat < y.toNat
      · left; simp [listLtB, h1]
      · by_cases h2 : y.toNat < x.toNat
        · right; left; simp [listLtB, h2]
        · have he : x.toNat = y.toNat := by omega
          have hxy : x = y := Char.ext (UInt32.ext he)
          rcases ih ys with h | h | h
          · left; simpa [listLtB, h1, h2] using h
          · right; left; simpa [listLtB, hxy, h1, h2, he] using h
          · right; right; simp [hxy, h]

theorem listLtB_trans {a b c : List Char}
    (h1 : listLtB a b = true) (h2 : listLtB b c = true) : listLtB a c = true := by
  induction a generalizing b c with
  | nil =>
    cases b with
    | nil => simp [listLtB] at h1
    | cons y ys =>
      cases c with
      | nil => simp [listLtB] at h2
      | cons z zs => simp [listLtB]
  | cons x xs ih =>
    cases b with
    | nil => simp [listLtB] at h1
    | cons y ys =>
      cases c with
      | nil => simp [listLtB] at h2
      | cons z zs =>
        simp only [listLtB] at h1 h2 ⊢
        by_cases hxy : x.toNat < y.toNat
        · by_cases hyz : y.toNat < z.toNat
          · simp [show x.toNat < z.toNat by omega]
          · by_cases hzy : z.toNat < y.toNat
            · simp [hyz, hzy] at h2
            · have : y.toNat = z.toNat := by omega
              simp [show x.toNat < z.toNat by omega]
        · by_cases hyx : y.toNat < x.toNat
          · simp [hxy, hyx] at h1
          · have hxyeq : x.toNat = y.toNat := by omega
            by_cases hyz : y.toNat < z.toNat
            · simp [show x.toNat < z.toNat by omega]
            · by_cases hzy : z.toNat < y.toNat
              · simp [hyz, hzy] at h2
              · have : ¬ x.toNat < z.toNat := by omega
                have : ¬ z.toNat < x.toNat := by omega
                simp [hxy, hyx, hyz, hzy] at h1 h2
                simp [show ¬ x.toNat < z.toNat by omega, show ¬ z.toNat < x.toNat by omega]
                exact ih h1 h2

theorem string_eq_iff_data {a b : String} : a = b ↔ a.data = b.data :=
  ⟨fun h => h ▸ rfl, String.ext⟩

theorem strLtB_irrefl (s : String) : strLtB s s = false := listLtB_irrefl s.data

theorem strLtB_asymm {a b : String} (h : strLtB a b = true) : strLtB b a = false :=
  listLtB_asymm h

theorem strLtB_trans {a b c : String} (h1 : strLtB a b = true) (h2 : strLtB b c = true) :
    strLtB a c = true := listLtB_trans h1 h2

theorem strLtB_total (a b : String) : strLtB a b = true ∨ strLtB b a = true ∨ a = b := by
  rcases listLtB_total a.data b.data with h | h | h
  · exact Or.inl h
  · exact Or.inr (Or.inl h)
  · exact Or.inr (Or.inr (String.ext h))

theorem strLeB_total (a b : String) : strLeB a b = true ∨ strLeB b a = true := by
  rcases strLtB_total a b with h | h | h
  · exact Or.inl (by simp [strLeB, h])
  · exact Or.inr (by simp [strLeB, h])
  · exact Or.inl (by simp [strLeB, h])

theorem strLeB_trans {a b c : String} (h1 : strLeB a b = true) (h2 : strLeB b c = true) :
    strLeB a c = true := by
  simp only [strLeB, Bool.or_eq_true, beq_iff_eq] at h1 h2 ⊢
  rcases h1 with h1 | h1
  · rcases h2 with h2 | h2
    · exact Or.inl (strLtB_trans h1 h2)
    · exact Or.inl (h2 ▸ h1)
  · subst h1
    exact h2

theorem strLeB_antisymm {a b : String} (h1 : strLeB a b = true) (h2 : strLeB b a = true) :
    a = b := by
  simp only [strLeB, Bool.or_eq_true, beq_iff_eq] at h1 h2
  rcases h1 with h1 | h1
  · rcases h2 with h2 | h2
    · have := strLtB_asymm h1
      rw [h2] at this
      exact absurd this (by simp)
    · exact h2.symm
  · exact h1

theorem insertLe_perm {α : Type} (le : α → α → Bool) (a : α) (l : List α) :
    (insertLe le a l).Perm (a :: l) := by
  induction l with
  | nil => simp [insertLe]
  | cons b t ih =>
    by_cases h : le a b
    · simp [insertLe, h]
    · simp only [insertLe, h, if_neg]
      exact (List.Perm.cons b ih).trans (List.Perm.swap a b t)

theorem sortByLe_perm {α : Type} (le : α → α → Bool) (l : List α) :
    (sortByLe le l).Perm l := by
  induction l with
  | nil => simp [sortByLe]
  | cons a t ih =>
    exact (insertLe_perm le a (sortByLe le t)).trans (List.Perm.cons a ih)

theorem mem_sortByLe {α : Type} (le : α → α → Bool) (l : List α) (a : α) :
    a ∈ sortByLe le l ↔ a ∈ l :=
  (sortByLe_perm le l).mem_iff

theorem insertLe_sorted {α : Type} (le : α → α → Bool)
    (htot : ∀ a b, le a b = true ∨ le b a = true)
    (htrans : ∀ a b c, le a b = true → le b c = true → le a c = true)
    (a : α) (l : List α)
    (h : l.Pairwise (fun x y => le x y = true)) :
    (insertLe le a l).Pairwise (fun x y => le x y = true) := by
  induction l with
  | nil => simp [insertLe]
  | cons b t ih =>
    rcases List.pairwise_cons.1 h with ⟨hb, ht⟩
    by_cases hab : le a b = true
    · show ((if le a b then a :: b :: t else b :: insertLe le a t)).Pairwise _
      rw [if_pos hab]
      refine List.pairwise_cons.2 ⟨?_, h⟩
      intro x hx
      rcases List.mem_cons.1 hx with hx | hx
      · exact hx ▸ hab
      · exact htrans a b x hab (hb x hx)
    · show ((if le a b then a :: b :: t else b :: insertLe le a t)).Pairwise _
      rw [if_neg hab]
      refine List.pairwise_cons.2 ⟨?_, ih ht⟩
      intro x hx
      have hx2 := List.mem_cons.1 ((insertLe_perm le a t).mem_iff.1 hx)
      rcases hx2 with hx2 | hx2
      · rcases htot a b with h2 | h2
        · exact absurd h2 hab
        · exact hx2 ▸ h2
      · exact hb x hx2

theorem sortByLe_sorted {α : Type} (le : α → α → Bool)
    (htot : ∀ a b, le a b = true ∨ le b a = true)
    (htrans : ∀ a b c, le a b = true → le b c = true → le a c = true)
    (l : List α) :
    (sortByLe le l).Pairwise (fun x y => le x y = true) := by
  induction l with
  | nil => simp [sortByLe]
  | cons a t ih => exact insertLe_sorted le htot htrans a (sortByLe le t) ih

/-- Two le-sorted lists that are permutations of each other are equal,
provided `le` is antisymmetric. -/
theorem sorted_perm_eq {α : Type} (le : α → α → Bool)
    (hanti : ∀ a b, le a b = true → le b a = true → a = b) :
    ∀ (l1 l2 : List α), l1.Perm l2 →
      l1.Pairwise (fun x y => le x y = true) →
      l2.Pairwise (fun x y => le x y = true) → l1 = l2 := by
  intro l1
  induction l1 with
  | nil =>
    intro l2 hp _ _
    exact List.Perm.nil_eq hp
  | cons a t ih =>
    intro l2 hp h1 h2
    cases l2 with
    | nil => exact absurd hp.eq_nil (by simp)
    | cons b t2 =>
      rcases List.pairwise_cons.1 h1 with ⟨ha, ht⟩
      rcases List.pairwise_cons.1 h2 with ⟨hb, ht2⟩
      have hab : a = b := by
        have hmem_a : a ∈ b :: t2 := hp.mem_iff.1 (List.mem_cons_self a t)
        have hmem_b : b ∈ a :: t := hp.symm.mem_iff.1 (List.mem_cons_self b t2)
        rcases List.mem_cons.1 hmem_a with h | h
        · exact h
        · rcases List.mem_cons.1 hmem_b with h3 | h3
          · exact h3.symm
          · exact hanti a b (ha b h3) (hb a h)
      subst hab
      have hpt : t.Perm t2 := (List.perm_cons a).1 hp
      rw [ih t2 hpt ht ht2]

theorem mem_sortedDedup (l : List String) (a : String) :
    a ∈ sortedDedup l ↔ a ∈ l := by
  rw [sortedDedup, mem_sortByLe, List.mem_dedup]

theorem sortedDedup_perm_invariant {l1 l2 : List String} (h : l1.Perm l2) :
    sortedDedup l1 = sortedDedup l2 := by
  apply sorted_perm_eq strLeB (fun a b => strLeB_antisymm)
  · exact ((sortByLe_perm strLeB l1.dedup).trans h.dedup).trans (sortByLe_perm strLeB l2.dedup).symm
  · exact sortByLe_sorted strLeB strLeB_total (fun a b c => strLeB_trans) l1.dedup
  · exact sortByLe_sorted strLeB strLeB_total (fun a b c => strLeB_trans) l2.dedup

theorem splitSl_ne_nil (l : List Char) : splitSl l ≠ [] := by
  cases l with
  | nil => simp [splitSl]
  | cons c cs =>
    by_cases h : c = '/'
    · simp [splitSl, h]
    · simp only [splitSl, h, if_neg]
      cases hs : splitSl cs with
      | nil => simp
      | cons p ps => simp

theorem joinSl_cons_cons (p q : List Char) (rest : List (List Char)) :
    joinSl (p :: q :: rest) = p ++ '/' :: joinSl (q :: rest) := rfl

theorem joinSl_cons_ne (p : List Char) (Q : List (List Char)) (h : Q ≠ []) :
    joinSl (p :: Q) = p ++ '/' :: joinSl Q := by
  cases Q with
  | nil => exact absurd rfl h
  | cons q rest => rfl

theorem splitSl_cons_slash (cs : List Char) : splitSl ('/' :: cs) = [] :: splitSl cs := by
  simp [splitSl]

theorem splitSl_cons_ne (c : Char) (cs : List Char) (h : ¬ c = '/') (p : List Char)
    (ps : List (List Char)) (hs : splitSl cs = p :: ps) :
    splitSl (c :: cs) = (c :: p) :: ps := by
  simp [splitSl, h, hs]

theorem splitSl_append (u v : List Char) :
    splitSl (u ++ '/' :: v) = splitSl u ++ splitSl v := by
  induction u with
  | nil => simp [splitSl]
  | cons c u' ih =>
    by_cases h : c = '/'
    · subst h
      rw [List.cons_append, splitSl_cons_slash, splitSl_cons_slash, ih]
      rfl
    · obtain ⟨p, ps, hs⟩ : ∃ p ps, splitSl u' = p :: ps := by
        cases hs2 : splitSl u' with
        | nil => exact absurd hs2 (splitSl_ne_nil u')
        | cons p ps => exact ⟨p, ps, rfl⟩
      have h1 : splitSl (u' ++ '/' :: v) = p :: (ps ++ splitSl v) := by
        rw [ih, hs]
        rfl
      rw [List.cons_append, splitSl_cons_ne c _ h _ _ h1, splitSl_cons_ne c _ h _ _ hs]
      rfl

theorem joinSl_splitSl (l : List Char) : joinSl (splitSl l) = l := by
  induction l with
  | nil => rfl
  | cons c cs ih =>
    by_cases h : c = '/'
    · rw [show splitSl (c :: cs) = [] :: splitSl cs by simp [splitSl, h]]
      rw [joinSl_cons_ne [] (splitSl cs) (splitSl_ne_nil cs), ih, h]
      rfl
    · cases hs : splitSl cs with
      | nil => exact absurd hs (splitSl_ne_nil cs)
      | cons p ps =>
        rw [show splitSl (c :: cs) = (c :: p) :: ps by simp [splitSl, h, hs]]
        rw [hs] at ih
        cases ps with
        | nil =>
          simp only [joinSl] at ih ⊢
          rw [ih]
        | cons q rest =>
          rw [joinSl_cons_cons] at ih ⊢
          simp only [List.cons_append]
          rw [ih]

theorem splitSl_noSlash (p : List Char) (h : '/' ∉ p) : splitSl p = [p] := by
  induction p with
  | nil => rfl
  | cons c cs ih =>
    have hc : c ≠ '/' := fun hc => h (hc ▸ List.mem_cons_self c cs)
    have hcs : '/' ∉ cs := fun hm => h (List.mem_cons_of_mem c hm)
    simp [splitSl, hc, ih hcs]

theorem mem_splitSl_noSlash (l : List Char) : ∀ p ∈ splitSl l, '/' ∉ p := by
  induction l with
  | nil => intro p hp; simp [splitSl] at hp; simp [hp]
  | cons c cs ih =>
    intro p hp
    by_cases h : c = '/'
    · simp [splitSl, h] at hp
      rcases hp with hp | hp
      · simp [hp]
      · exact ih p hp
    · simp only [splitSl, h, if_neg] at hp
      cases hs : splitSl cs with
      | nil => exact absurd hs (splitSl_ne_nil cs)
      | cons q ps =>
        rw [hs] at hp
        simp at hp
        rcases hp with hp | hp
        · subst hp
          intro hm
          rcases List.mem_cons.1 hm with hm | hm
          · exact h hm.symm
          · exact ih q (by simp [hs]) hm
        · exact ih p (by simp [hs, hp])

theorem splitSl_joinSl (P : List (List Char)) (hne : P ≠ [])
    (hns : ∀ p ∈ P, '/' ∉ p) : splitSl (joinSl P) = P := by
  induction P with
  | nil => exact absurd rfl hne
  | cons p ps ih =>
    cases ps with
    | nil =>
      show splitSl (joinSl [p]) = [p]
      rw [show joinSl [p] = p from rfl]
      exact splitSl_noSlash p (hns p (List.mem_cons_self p []))
    | cons q rest =>
      rw [joinSl_cons_ne p (q :: rest) (by simp)]
      rw [splitSl_append, splitSl_noSlash p (hns p (List.mem_cons_self p _))]
      rw [ih (by simp) (fun x hx => hns x (List.mem_cons_of_mem p hx))]
      rfl

theorem joinParts_splitParts (s : String) : joinParts (splitParts s) = s := by
  apply String.ext
  show (joinSl (((splitSl s.data).map String.mk).map String.data)) = s.data
  rw [List.map_map]
  have : (String.data ∘ String.mk) = id := by
    funext l
    rfl
  rw [this, List.map_id]
  exact joinSl_splitSl s.data

theorem splitParts_inj {a b : String} (h : splitParts a = splitParts b) : a = b := by
  have := joinParts_splitParts a
  rw [h, joinParts_splitParts] at this
  exact this.symm

theorem splitParts_ne_nil (s : String) : splitParts s ≠ [] := by
  intro h
  have := splitSl_ne_nil s.data
  simp [splitParts] at h
  exact this h

theorem mem_splitParts_noSlash (s : String) : ∀ p ∈ splitParts s, '/' ∉ p.data := by
  intro p hp
  simp only [splitParts, List.mem_map] at hp
  rcases hp with ⟨l, hl, rfl⟩
  exact mem_splitSl_noSlash s.data l hl

theorem escapeL_cons (c : Char) (rest : List Char) :
    escapeL (c :: rest) = escChar c ++ escapeL rest := by
  simp [escapeL]

theorem escapeL_append (a b : List Char) : escapeL (a ++ b) = escapeL a ++ escapeL b := by
  simp [escapeL]

theorem decodeL_cons_ne (c : Char) (rest : List Char) (hc : ¬ c = '\\') :
    decodeL (c :: rest) = (decodeL rest).map (c :: ·) := by
  rw [decodeL.eq_def]
  simp [hc]

theorem decodeL_cons_bs (d : Char) (r2 : List Char) :
    decodeL ('\\' :: d :: r2) = (decodeL r2).map (d :: ·) := by
  rw [decodeL.eq_def]
  simp

theorem decode_escape (l : List Char) : decodeL (escapeL l) = some l := by
  induction l with
  | nil => rfl
  | cons c rest ih =>
    rw [escapeL_cons]
    by_cases h : c ∈ specialChars
    · have he : escChar c = ['\\', c] := by simp [escChar, h]
      rw [he]
      show decodeL ('\\' :: c :: escapeL rest) = _
      rw [decodeL_cons_bs, ih]
      rfl
    · have he : escChar c = [c] := by simp [escChar, h]
      have hc : ¬ c = '\\' := by
        intro hc; subst hc; simp [specialChars] at h
      rw [he]
      show decodeL (c :: escapeL rest) = _
      rw [decodeL_cons_ne c _ hc, ih]
      rfl

theorem escape_inj {a b : List Char} (h : escapeL a = escapeL b) : a = b := by
  have h1 := decode_escape a
  rw [h, decode_escape] at h1
  exact (Option.some.inj h1).symm

theorem data_append (a b : String) : (a ++ b).data = a.data ++ b.data := by
  cases a; cases b; rfl

theorem regexForPath_leaf_data (p : String) :
    (regexForPath p true).data = '^' :: (escapeL p.data ++ ['$']) := by
  show ("^" ++ reEscape p ++ "$").data = _
  rw [data_append, data_append]
  rfl

theorem regexForPath_dir_data (p : String) :
    (regexForPath p false).data = '^' :: (escapeL p.data ++ ['/', '.', '*']) := by
  show ("^" ++ reEscape p ++ "/.*").data = _
  rw [data_append, data_append]
  rfl

theorem no_dollar_eq_star {a b : List Char}
    (h : a ++ ['$'] = b ++ ['/', '.', '*']) : False := by
  have h1 : (a ++ ['$']).getLast? = some '$' := List.getLast?_concat a
  have h2 : (b ++ ['/', '.', '*']).getLast? = some '*' := by
    rw [show b ++ ['/', '.', '*'] = (b ++ ['/', '.']) ++ ['*'] by simp]
    exact List.getLast?_concat _
  rw [h, h2] at h1
  simp at h1

/-- A leaf pattern matches exactly its own path. -/
theorem regexMatches_leaf (p f : String) :
    regexMatches (regexForPath p true) f = true ↔ f = p := by
  unfold regexMatches regexMatchesL
  rw [regexForPath_leaf_data]
  constructor
  · intro h
    rcases Bool.or_eq_true_iff.1 h with h | h
    · have h2 := List.cons.inj (beq_iff_eq.1 h)
      have h3 := List.append_cancel_right h2.2.symm
      exact String.ext (escape_inj h3)
    · rcases List.any_eq_true.1 h with ⟨i, _, hi⟩
      rcases Bool.and_eq_true_iff.1 hi with ⟨hpat, _⟩
      have h2 := List.cons.inj (beq_iff_eq.1 hpat)
      exact absurd h2.2 no_dollar_eq_star
  · intro h
    subst h
    simp

/-- A directory pattern matches exactly the paths strictly beneath its
own path. -/
theorem regexMatches_dir (p f : String) :
    regexMatches (regexForPath p false) f = true ↔
      ∃ r, f.data = p.data ++ '/' :: r := by
  unfold regexMatches regexMatchesL
  rw [regexForPath_dir_data]
  constructor
  · intro h
    rcases Bool.or_eq_true_iff.1 h with h | h
    · have h2 := List.cons.inj (beq_iff_eq.1 h)
      exact absurd h2.2.symm no_dollar_eq_star
    · rcases List.any_eq_true.1 h with ⟨i, _, hi⟩
      rcases Bool.and_eq_true_iff.1 hi with ⟨hpat, hhd⟩
      have h2 := List.cons.inj (beq_iff_eq.1 hpat)
      have h3 : p.data = f.data.take i := escape_inj (List.append_cancel_right h2.2)
      cases hdrop : f.data.drop i with
      | nil =>
        rw [hdrop] at hhd
        simp at hhd
      | cons d r =>
        rw [hdrop] at hhd
        have hd : d = '/' := by simpa using hhd
        subst hd
        refine ⟨r, ?_⟩
        have htad := List.take_append_drop i f.data
        rw [hdrop] at htad
        rw [← htad, ← h3]
  · intro ⟨r, hr⟩
    apply Bool.or_eq_true_iff.2
    right
    apply List.any_eq_true.2
    refine ⟨p.data.length, ?_, ?_⟩
    · apply List.mem_range.2
      rw [hr]
      simp
      omega
    · apply Bool.and_eq_true_iff.2
      constructor
      · apply beq_iff_eq.2
        rw [hr, List.take_left]
      · apply beq_iff_eq.2
        rw [hr, List.drop_left]
        rfl

/-- Structural induction over the nested trie with the inductive
hypothesis available for every child. -/
theorem trie_ind (motive : TrieNode → Prop)
    (step : ∀ cs ts, (∀ k c, (k, c) ∈ cs → motive c) → motive (TrieNode.mk cs ts)) :
    ∀ t, motive t := by
  have H : ∀ n t, sizeOf t ≤ n → motive t := by
    intro n
    induction n with
    | zero =>
      intro t h
      cases t with
      | mk cs ts => simp at h
    | succ n ih =>
      intro t h
      cases t with
      | mk cs ts =>
        apply step
        intro k c hkc
        apply ih
        have h1 := List.sizeOf_lt_of_mem hkc
        simp at h h1 ⊢
        omega
  intro t
  exact H (sizeOf t) t le_rfl

theorem mem_kidFiles {cs : List (String × TrieNode)} {x : List String × String} :
    x ∈ kidFiles cs ↔
      ∃ k c, (k, c) ∈ cs ∧ ∃ fd ∈ filesOf c, x = (k :: fd.1, fd.2) := by
  induction cs with
  | nil => simp [kidFiles]
  | cons kc rest ih =>
    obtain ⟨k, c⟩ := kc
    simp only [kidFiles, List.mem_append, List.mem_map, ih]
    constructor
    · intro h
      rcases h with ⟨fd, hfd, rfl⟩ | ⟨k2, c2, hm, fd, hfd, rfl⟩
      · exact ⟨k, c, by simp, fd, hfd, rfl⟩
      · exact ⟨k2, c2, by simp [hm], fd, hfd, rfl⟩
    · intro ⟨k2, c2, hm, fd, hfd, hx⟩
      rcases List.mem_cons.1 hm with hm | hm
      · obtain ⟨hk, hc⟩ := Prod.mk.injEq .. ▸ hm
        left
        exact ⟨fd, hc ▸ hfd, by rw [hx, hk]⟩
      · right
        exact ⟨k2, c2, hm, fd, hfd, hx⟩

theorem mem_filesOf_mk {cs : List (String × TrieNode)} {ts : List String}
    {F : List String} {d : String} :
    (F, d) ∈ filesOf (.mk cs ts) ↔
      (F = [] ∧ d ∈ ts) ∨
      ∃ k c F', (k, c) ∈ cs ∧ F = k :: F' ∧ (F', d) ∈ filesOf c := by
  show (F, d) ∈ ts.map (fun d => ([], d)) ++ kidFiles cs ↔ _
  rw [List.mem_append, mem_kidFiles]
  constructor
  · intro h
    rcases h with h | ⟨k, c, hm, fd, hfd, hx⟩
    · left
      simp at h
      exact ⟨h.2.symm ▸ rfl, h.1⟩
    · right
      obtain ⟨hF, hd⟩ := Prod.mk.injEq .. ▸ hx
      exact ⟨k, c, fd.1, hm, by simp_all, by simp_all⟩
  · intro h
    rcases h with ⟨hF, hd⟩ | ⟨k, c, F', hm, hF, hmem⟩
    · left
      simp [hF, hd]
    · right
      exact ⟨k, c, hm, (F', d), hmem, by simp [hF]⟩

/-! ### Label characterization -/

theorem dedup_eq_singleton_iff {l : List String} {a : String} :
    l.dedup = [a] ↔ l ≠ [] ∧ ∀ x ∈ l, x = a := by
  constructor
  · intro h
    constructor
    · intro hnil
      rw [hnil] at h
      simp at h
    · intro x hx
      have : x ∈ l.dedup := List.mem_dedup.2 hx
      rw [h] at this
      simpa using this
  · intro ⟨hne, hall⟩
    have hmem : ∀ x ∈ l.dedup, x = a := fun x hx => hall x (List.mem_dedup.1 hx)
    have hd : l.dedup ≠ [] := by
      cases l with
      | nil => exact absurd rfl hne
      | cons y t =>
        exact List.ne_nil_of_mem (List.mem_dedup.2 (List.mem_cons_self y t))
    have hnd : l.dedup.Nodup := List.nodup_dedup l
    cases hdd : l.dedup with
    | nil => exact absurd hdd hd
    | cons x t =>
      have hx : x = a := hmem x (by simp [hdd])
      cases t with
      | nil => simp [hx]
      | cons y t2 =>
        have hy : y = a := hmem y (by simp [hdd])
        rw [hdd] at hnd
        rw [hx, hy] at hnd
        simp at hnd

theorem childLabels_eq_map (cs : List (String × TrieNode)) :
    childLabels cs = cs.map (fun kc => labelStr kc.2) := by
  induction cs with
  | nil => rfl
  | cons kc rest ih =>
    obtain ⟨k, c⟩ := kc
    rw [childLabels, ih]
    rfl

theorem labelOf_mk (cs : List (String × TrieNode)) (ts : List String) :
    labelOf (.mk cs ts) =
      match (ts ++ childLabels cs).dedup with
      | [l] => if l = "__MIXED__" then none else some l
      | _ => none := by
  rw [labelOf]

/-- `labelOf` is `some l` exactly when the terminal set and all child
labels form the nonempty singleton set of a non-sentinel value `l`. -/
theorem labelOf_eq_some_iff {cs : List (String × TrieNode)} {ts : List String} {l : String} :
    labelOf (.mk cs ts) = some l ↔
      l ≠ "__MIXED__" ∧ (ts ≠ [] ∨ cs ≠ []) ∧
        (∀ x ∈ ts, x = l) ∧ (∀ kc ∈ cs, labelStr kc.2 = l) := by
  rw [labelOf_mk]
  constructor
  · intro h
    cases hd : (ts ++ childLabels cs).dedup with
    | nil => rw [hd] at h; simp at h
    | cons a t =>
      cases t with
      | nil =>
        rw [hd] at h
        by_cases ha : a = "__MIXED__"
        · simp [ha] at h
        · simp [ha] at h
          subst h
          have := dedup_eq_singleton_iff.1 hd
          refine ⟨ha, ?_, ?_, ?_⟩
          · by_cases hts : ts = []
            · right
              intro hcs
              apply this.1
              rw [hts, hcs]
              rfl
            · left
              exact hts
          · intro x hx
            exact this.2 x (List.mem_append.2 (Or.inl hx))
          · intro kc hkc
            apply this.2
            apply List.mem_append.2
            right
            rw [childLabels_eq_map]
            exact List.mem_map.2 ⟨kc, hkc, rfl⟩
      | cons b t2 =>
        rw [hd] at h
        simp at h
  · intro ⟨hl, hne, hts, hcs⟩
    have hall : ∀ x ∈ ts ++ childLabels cs, x = l := by
      intro x hx
      rcases List.mem_append.1 hx with hx | hx
      · exact hts x hx
      · rw [childLabels_eq_map] at hx
        rcases List.mem_map.1 hx with ⟨kc, hkc, rfl⟩
        exact hcs kc hkc
    have hnonempty : ts ++ childLabels cs ≠ [] := by
      rcases hne with h | h
      · intro hc
        rcases List.append_eq_nil.1 hc with ⟨h1, _⟩
        exact h h1
      · intro hc
        rcases List.append_eq_nil.1 hc with ⟨_, h2⟩
        rw [childLabels_eq_map] at h2
        exact h (List.map_eq_nil_iff.1 h2)
    rw [dedup_eq_singleton_iff.2 ⟨hnonempty, hall⟩]
    simp [hl]

/-- A defined label forces every file in the subtree into that database. -/
theorem labelOf_some_all_files {n : TrieNode} {L : String} (h : labelOf n = some L) :
    ∀ fd ∈ filesOf n, fd.2 = L := by
  induction n using trie_ind with
  | step cs ts ih =>
    rcases labelOf_eq_some_iff.1 h with ⟨hL, _, hts, hcs⟩
    intro fd hfd
    obtain ⟨F, d⟩ := fd
    rcases mem_filesOf_mk.1 hfd with ⟨_, hd⟩ | ⟨k, c, F', hkc, hF, hmem⟩
    · exact hts d hd
    · have hlc := hcs (k, c) hkc
      cases hc : labelOf c with
      | none =>
        rw [labelStr, hc] at hlc
        exact absurd hlc.symm hL
      | some L2 =>
        rw [labelStr, hc] at hlc
        simp at hlc
        subst hlc
        exact ih k c hkc hc (F', d) hmem

/-- A subtree with no files has no label. -/
theorem labelOf_none_of_no_files {n : TrieNode} (h : filesOf n = []) :
    labelOf n = none := by
  induction n using trie_ind with
  | step cs ts ih =>
    have hts : ts = [] := by
      cases hts : ts with
      | nil => rfl
      | cons d t =>
        have : ([], d) ∈ filesOf (.mk cs ts) := mem_filesOf_mk.2 (Or.inl ⟨rfl, by simp [hts]⟩)
        rw [h] at this
        simp at this
    have hkids : ∀ kc ∈ cs, filesOf kc.2 = [] := by
      intro kc hkc
      cases hf : filesOf kc.2 with
      | nil => rfl
      | cons fd rest =>
        have : (kc.1 :: fd.1, fd.2) ∈ filesOf (TrieNode.mk cs ts) := by
          apply mem_filesOf_mk.2
          right
          exact ⟨kc.1, kc.2, fd.1, by simpa using hkc, rfl, by simp [hf, Prod.mk.eta]⟩
        rw [h] at this
        simp at this
    rw [labelOf_mk]
    have hcl : ∀ x ∈ ts ++ childLabels cs, x = "__MIXED__" := by
      intro x hx
      rcases List.mem_append.1 hx with hx | hx
      · rw [hts] at hx; simp at hx
      · rw [childLabels_eq_map] at hx
        rcases List.mem_map.1 hx with ⟨kc, hkc, rfl⟩
        rw [labelStr, ih kc.1 kc.2 (by simpa using hkc) (hkids kc hkc)]
    cases hd : (ts ++ childLabels cs).dedup with
    | nil => rfl
    | cons a t =>
      cases t with
      | nil =>
        have := dedup_eq_singleton_iff.1 hd
        have ha : a = "__MIXED__" := by
          have hmem : a ∈ ts ++ childLabels cs := by
            have : a ∈ (ts ++ childLabels cs).dedup := by simp [hd]
            exact List.mem_dedup.1 this
          exact hcl a hmem
        simp [ha]
      | cons b t2 =>
        rfl

/-- A subtree whose files all belong to the sentinel key has no label
(the claim C10 collision). -/
theorem labelOf_none_of_all_sentinel {n : TrieNode}
    (h : ∀ fd ∈ filesOf n, fd.2 = "__MIXED__") : labelOf n = none := by
  induction n using trie_ind with
  | step cs ts ih =>
    rw [labelOf_mk]
    have hcl : ∀ x ∈ ts ++ childLabels cs, x = "__MIXED__" := by
      intro x hx
      rcases List.mem_append.1 hx with hx | hx
      · exact h ([], x) (mem_filesOf_mk.2 (Or.inl ⟨rfl, hx⟩))
      · rw [childLabels_eq_map] at hx
        rcases List.mem_map.1 hx with ⟨kc, hkc, rfl⟩
        rw [labelStr, ih kc.1 kc.2 (by simpa using hkc) ?_]
        intro fd hfd
        exact h (kc.1 :: fd.1, fd.2)
          (mem_filesOf_mk.2 (Or.inr ⟨kc.1, kc.2, fd.1, by simpa using hkc, rfl, by simpa using hfd⟩))
    cases hd : (ts ++ childLabels cs).dedup with
    | nil => rfl
    | cons a t =>
      cases t with
      | nil =>
        have ha : a = "__MIXED__" := by
          have hmem : a ∈ ts ++ childLabels cs :=
            List.mem_dedup.1 (by simp [hd])
          exact hcl a hmem
        simp [ha]
      | cons b t2 => rfl

theorem inhabKids_iff (cs : List (String × TrieNode)) :
    inhabKids cs ↔ ∀ kc ∈ cs, inhabT kc.2 := by
  induction cs with
  | nil => simp [inhabKids]
  | cons kc rest ih =>
    obtain ⟨k, c⟩ := kc
    rw [inhabKids, ih]
    constructor
    · intro ⟨h1, h2⟩ kc2 hm
      rcases List.mem_cons.1 hm with hm | hm
      · rw [hm]; exact h1
      · exact h2 kc2 hm
    · intro h
      exact ⟨h (k, c) (by simp), fun kc2 hm => h kc2 (by simp [hm])⟩

theorem keysOKKids_iff (cs : List (String × TrieNode)) :
    keysOKKids cs ↔ ∀ kc ∈ cs, keysOKT kc.2 := by
  induction cs with
  | nil => simp [keysOKKids]
  | cons kc rest ih =>
    obtain ⟨k, c⟩ := kc
    rw [keysOKKids, ih]
    constructor
    · intro ⟨h1, h2⟩ kc2 hm
      rcases List.mem_cons.1 hm with hm | hm
      · rw [hm]; exact h1
      · exact h2 kc2 hm
    · intro h
      exact ⟨h (k, c) (by simp), fun kc2 hm => h kc2 (by simp [hm])⟩

theorem slashOKKids_iff (cs : List (String × TrieNode)) :
    slashOKKids cs ↔ ∀ kc ∈ cs, slashOKT kc.2 := by
  induction cs with
  | nil => simp [slashOKKids]
  | cons kc rest ih =>
    obtain ⟨k, c⟩ := kc
    rw [slashOKKids, ih]
    constructor
    · intro ⟨h1, h2⟩ kc2 hm
      rcases List.mem_cons.1 hm with hm | hm
      · rw [hm]; exact h1
      · exact h2 kc2 hm
    · intro h
      exact ⟨h (k, c) (by simp), fun kc2 hm => h kc2 (by simp [hm])⟩

/-- If every file of an inhabited subtree belongs to the (non-sentinel)
key `k`, the subtree's label is exactly `k`. -/
theorem labelOf_of_all_same {n : TrieNode} {k : String}
    (hk : k ≠ "__MIXED__") (hinh : inhabT n)
    (h : ∀ fd ∈ filesOf n, fd.2 = k) : labelOf n = some k := by
  induction n using trie_ind with
  | step cs ts ih =>
    rw [inhabT] at hinh
    apply labelOf_eq_some_iff.2
    refine ⟨hk, hinh.1, ?_, ?_⟩
    · intro x hx
      exact h ([], x) (mem_filesOf_mk.2 (Or.inl ⟨rfl, hx⟩))
    · intro kc hkc
      have hlc : labelOf kc.2 = some k := by
        apply ih kc.1 kc.2 (by simpa using hkc)
        · exact (inhabKids_iff cs).1 hinh.2 kc hkc
        · intro fd hfd
          exact h (kc.1 :: fd.1, fd.2)
            (mem_filesOf_mk.2 (Or.inr ⟨kc.1, kc.2, fd.1, by simpa using hkc, rfl, by simpa using hfd⟩))
      rw [labelStr, hlc]

theorem filesOf_emptyNode : filesOf emptyNode = [] := by
  rw [emptyNode, filesOf, kidFiles]
  rfl

theorem mem_setAdd {x d : String} {l : List String} :
    x ∈ setAdd d l ↔ x ∈ l ∨ x = d := by
  unfold setAdd
  by_cases h : d ∈ l
  · simp only [h, if_pos]
    constructor
    · exact Or.inl
    · intro hc
      rcases hc with hc | hc
      · exact hc
      · exact hc ▸ h
  · simp [h]

theorem setAdd_ne_nil (d : String) (l : List String) : setAdd d l ≠ [] := by
  unfold setAdd
  by_cases h : d ∈ l
  · simp only [h, if_pos]
    exact List.ne_nil_of_mem h
  · simp [h]

theorem updateChild_ne_nil (f : TrieNode → TrieNode) (k : String)
    (cs : List (String × TrieNode)) : updateChild f k cs ≠ [] := by
  cases cs with
  | nil => simp [updateChild]
  | cons kc rest =>
    obtain ⟨k', c⟩ := kc
    unfold updateChild
    by_cases h1 : k = k'
    · simp [h1]
    · by_cases h2 : strLtB k k'
      · simp [h1, h2]
      · simp [h1, h2]

theorem mem_updateChild {f : TrieNode → TrieNode} {p : String}
    {cs : List (String × TrieNode)} {kc : String × TrieNode}
    (h : kc ∈ updateChild f p cs) :
    kc ∈ cs ∨ ∃ c₀, kc = (p, f c₀) ∧ ((p, c₀) ∈ cs ∨ c₀ = emptyNode) := by
  induction cs with
  | nil =>
    simp [updateChild] at h
    exact Or.inr ⟨emptyNode, by simp [h], Or.inr rfl⟩
  | cons kc' rest ih =>
    obtain ⟨k', c⟩ := kc'
    unfold updateChild at h
    by_cases h1 : p = k'
    · rw [if_pos h1] at h
      rcases List.mem_cons.1 h with h | h
      · exact Or.inr ⟨c, by rw [h, h1], Or.inl (by rw [h1]; simp)⟩
      · exact Or.inl (by simp [h])
    · rw [if_neg h1] at h
      by_cases h2 : strLtB p k'
      · rw [if_pos h2] at h
        rcases List.mem_cons.1 h with h | h
        · exact Or.inr ⟨emptyNode, by simp [h], Or.inr rfl⟩
        · exact Or.inl h
      · rw [if_neg h2] at h
        rcases List.mem_cons.1 h with h | h
        · exact Or.inl (by simp [h])
        · rcases ih h with h3 | ⟨c₀, hc₀, hm⟩
          · exact Or.inl (by simp [h3])
          · refine Or.inr ⟨c₀, hc₀, ?_⟩
            rcases hm with hm | hm
            · exact Or.inl (by simp [hm])
            · exact Or.inr hm

theorem keys_updateChild_subset (f : TrieNode → TrieNode) (p : String)
    (cs : List (String × TrieNode)) :
    ∀ x ∈ (updateChild f p cs).map Prod.fst, x ∈ cs.map Prod.fst ∨ x = p := by
  intro x hx
  rcases List.mem_map.1 hx with ⟨kc, hkc, rfl⟩
  rcases mem_updateChild hkc with h | ⟨c₀, hc₀, _⟩
  · exact Or.inl (List.mem_map.2 ⟨kc, h, rfl⟩)
  · exact Or.inr (by rw [hc₀])

theorem updateChild_keys_sorted (f : TrieNode → TrieNode) (p : String)
    (cs : List (String × TrieNode))
    (h : (cs.map Prod.fst).Pairwise (fun a b => strLtB a b = true)) :
    ((updateChild f p cs).map Prod.fst).Pairwise (fun a b => strLtB a b = true) := by
  induction cs with
  | nil => simp [updateChild]
  | cons kc rest ih =>
    obtain ⟨k', c⟩ := kc
    simp only [List.map_cons, List.pairwise_cons] at h
    obtain ⟨hk', hrest⟩ := h
    unfold updateChild
    by_cases h1 : p = k'
    · rw [if_pos h1]
      simp only [List.map_cons, List.pairwise_cons]
      exact ⟨hk', hrest⟩
    · rw [if_neg h1]
      by_cases h2 : strLtB p k'
      · rw [if_pos h2]
        simp only [List.map_cons, List.pairwise_cons]
        refine ⟨?_, hk', hrest⟩
        intro x hx
        rcases List.mem_cons.1 hx with hx | hx
        · exact hx ▸ h2
        · exact strLtB_trans h2 (hk' x hx)
      · rw [if_neg h2]
        simp only [List.map_cons, List.pairwise_cons]
        refine ⟨?_, ih hrest⟩
        intro x hx
        rcases keys_updateChild_subset f p rest x hx with h3 | h3
        · exact hk' x h3
        · subst h3
          rcases strLtB_total k' x with h4 | h4 | h4
          · exact h4
          · exact absurd h4 (by simpa using h2)
          · exact absurd h4.symm h1

theorem mem_kidFiles_updateChild
    {f : TrieNode → TrieNode} {p : String} {G : List String} {e : String}
    (hf : ∀ c Fe, Fe ∈ filesOf (f c) ↔ Fe ∈ filesOf c ∨ Fe = (G, e)) :
    ∀ (cs : List (String × TrieNode)) (x : List String × String),
      x ∈ kidFiles (updateChild f p cs) ↔ x ∈ kidFiles cs ∨ x = (p :: G, e) := by
  intro cs
  induction cs with
  | nil =>
    intro x
    show x ∈ kidFiles [(p, f emptyNode)] ↔ _
    rw [kidFiles, kidFiles]
    simp only [List.append_nil, List.mem_map, kidFiles, List.not_mem_nil, false_or]
    constructor
    · intro ⟨fd, hfd, hx⟩
      rcases (hf emptyNode fd).1 hfd with h | h
      · rw [filesOf_emptyNode] at h
        simp at h
      · rw [h] at hx
        exact hx ▸ rfl
    · intro hx
      exact ⟨(G, e), (hf emptyNode (G, e)).2 (Or.inr rfl), hx ▸ rfl⟩
  | cons kc rest ih =>
    intro x
    obtain ⟨k', c⟩ := kc
    unfold updateChild
    by_cases h1 : p = k'
    · rw [if_pos h1]
      rw [kidFiles, kidFiles]
      simp only [List.mem_append, List.mem_map]
      constructor
      · intro h
        rcases h with ⟨fd, hfd, hx⟩ | h
        · rcases (hf c fd).1 hfd with h2 | h2
          · exact Or.inl (Or.inl ⟨fd, h2, hx⟩)
          · rw [h2] at hx
            exact Or.inr (by rw [← hx, h1])
        · exact Or.inl (Or.inr h)
      · intro h
        rcases h with (⟨fd, hfd, hx⟩ | h) | h
        · exact Or.inl ⟨fd, (hf c fd).2 (Or.inl hfd), hx⟩
        · exact Or.inr h
        · exact Or.inl ⟨(G, e), (hf c (G, e)).2 (Or.inr rfl), by rw [h, h1]⟩
    · rw [if_neg h1]
      by_cases h2 : strLtB p k'
      · rw [if_pos h2]
        rw [kidFiles]
        simp only [List.mem_append, List.mem_map]
        constructor
        · intro h
          rcases h with ⟨fd, hfd, hx⟩ | h
          · rcases (hf emptyNode fd).1 hfd with h3 | h3
            · rw [filesOf_emptyNode] at h3
              simp at h3
            · rw [h3] at hx
              exact Or.inr (hx ▸ rfl)
          · exact Or.inl h
        · intro h
          rcases h with h | h
          · exact Or.inr h
          · exact Or.inl ⟨(G, e), (hf emptyNode (G, e)).2 (Or.inr rfl), h ▸ rfl⟩
      · rw [if_neg h2]
        rw [kidFiles, kidFiles]
        simp only [List.mem_append, List.mem_map]
        constructor
        · intro h
          rcases h with h | h
          · exact Or.inl (Or.inl h)
          · rcases (ih x).1 h with h3 | h3
            · exact Or.inl (Or.inr h3)
            · exact Or.inr h3
        · intro h
          rcases h with (h | h) | h
          · exact Or.inl h
          · exact Or.inr ((ih x).2 (Or.inl h))
          · exact Or.inr ((ih x).2 (Or.inr h))

theorem mem_filesOf_insert :
    ∀ (P : List String) (t : TrieNode) (d : String) (Fe : List String × String),
      Fe ∈ filesOf (insertPath t P d) ↔ Fe ∈ filesOf t ∨ Fe = (P, d) := by
  intro P
  induction P with
  | nil =>
    intro t d Fe
    obtain ⟨cs, ts⟩ := t
    obtain ⟨F, e⟩ := Fe
    show (F, e) ∈ filesOf (.mk cs (setAdd d ts)) ↔ _
    rw [mem_filesOf_mk, mem_filesOf_mk]
    constructor
    · intro h
      rcases h with ⟨hF, he⟩ | h
      · rcases mem_setAdd.1 he with h2 | h2
        · exact Or.inl (Or.inl ⟨hF, h2⟩)
        · exact Or.inr (by rw [hF, h2])
      · exact Or.inl (Or.inr h)
    · intro h
      rcases h with (⟨hF, he⟩ | h) | h
      · exact Or.inl ⟨hF, mem_setAdd.2 (Or.inl he)⟩
      · exact Or.inr h
      · obtain ⟨hF, he⟩ := Prod.mk.injEq .. ▸ h
        exact Or.inl ⟨hF, mem_setAdd.2 (Or.inr he)⟩
  | cons p ps ih =>
    intro t d Fe
    obtain ⟨cs, ts⟩ := t
    show Fe ∈ filesOf (.mk (updateChild (fun c => insertPath c ps d) p cs) ts) ↔ _
    rw [filesOf, filesOf]
    simp only [List.mem_append]
    have hkid := mem_kidFiles_updateChild
      (f := fun c => insertPath c ps d) (p := p) (G := ps) (e := d)
      (fun c Fe2 => ih c d Fe2) cs Fe
    constructor
    · intro h
      rcases h with h | h
      · exact Or.inl (Or.inl h)
      · rcases hkid.1 h with h2 | h2
        · exact Or.inl (Or.inr h2)
        · exact Or.inr h2
    · intro h
      rcases h with (h | h) | h
      · exact Or.inl h
      · exact Or.inr (hkid.2 (Or.inl h))
      · exact Or.inr (hkid.2 (Or.inr h))

theorem keysOKT_emptyNode : keysOKT emptyNode := by
  rw [emptyNode, keysOKT]
  exact ⟨by simp, by rw [keysOKKids]; trivial⟩

theorem slashOKT_emptyNode : slashOKT emptyNode := by
  rw [emptyNode, slashOKT]
  exact ⟨by simp, by rw [slashOKKids]; trivial⟩

theorem keysOK_insert :
    ∀ (P : List String) (t : TrieNode) (d : String),
      keysOKT t → keysOKT (insertPath t P d) := by
  intro P
  induction P with
  | nil =>
    intro t d h
    obtain ⟨cs, ts⟩ := t
    show keysOKT (.mk cs (setAdd d ts))
    rw [keysOKT] at h ⊢
    exact h
  | cons p ps ih =>
    intro t d h
    obtain ⟨cs, ts⟩ := t
    show keysOKT (.mk (updateChild (fun c => insertPath c ps d) p cs) ts)
    rw [keysOKT] at h ⊢
    obtain ⟨hsorted, hkids⟩ := h
    constructor
    · exact updateChild_keys_sorted _ p cs hsorted
    · rw [keysOKKids_iff]
      intro kc hkc
      rcases mem_updateChild hkc with hm | ⟨c₀, hc₀, hm⟩
      · exact (keysOKKids_iff cs).1 hkids kc hm
      · rw [hc₀]
        rcases hm with hm | hm
        · exact ih c₀ d ((keysOKKids_iff cs).1 hkids (p, c₀) hm)
        · exact hm ▸ ih emptyNode d keysOKT_emptyNode

theorem slashOK_insert :
    ∀ (P : List String) (t : TrieNode) (d : String),
      (∀ seg ∈ P, '/' ∉ seg.data) → slashOKT t → slashOKT (insertPath t P d) := by
  intro P
  induction P with
  | nil =>
    intro t d _ h
    obtain ⟨cs, ts⟩ := t
    show slashOKT (.mk cs (setAdd d ts))
    rw [slashOKT] at h ⊢
    exact h
  | cons p ps ih =>
    intro t d hP h
    obtain ⟨cs, ts⟩ := t
    show slashOKT (.mk (updateChild (fun c => insertPath c ps d) p cs) ts)
    rw [slashOKT] at h ⊢
    obtain ⟨hkeys, hkids⟩ := h
    constructor
    · intro kc hkc
      rcases mem_updateChild hkc with hm | ⟨c₀, hc₀, _⟩
      · exact hkeys kc hm
      · rw [hc₀]
        exact hP p (by simp)
    · rw [slashOKKids_iff]
      intro kc hkc
      rcases mem_updateChild hkc with hm | ⟨c₀, hc₀, hm⟩
      · exact (slashOKKids_iff cs).1 hkids kc hm
      · rw [hc₀]
        have hps : ∀ seg ∈ ps, '/' ∉ seg.data := fun seg hs => hP seg (by simp [hs])
        rcases hm with hm | hm
        · exact ih c₀ d hps ((slashOKKids_iff cs).1 hkids (p, c₀) hm)
        · exact hm ▸ ih emptyNode d hps slashOKT_emptyNode

theorem inhab_insert :
    ∀ (P : List String) (t : TrieNode) (d : String),
      inhabKids t.children → inhabT (insertPath t P d) := by
  intro P
  induction P with
  | nil =>
    intro t d h
    obtain ⟨cs, ts⟩ := t
    show inhabT (.mk cs (setAdd d ts))
    rw [inhabT]
    exact ⟨Or.inl (setAdd_ne_nil d ts), h⟩
  | cons p ps ih =>
    intro t d h
    obtain ⟨cs, ts⟩ := t
    show inhabT (.mk (updateChild (fun c => insertPath c ps d) p cs) ts)
    rw [inhabT]
    constructor
    · exact Or.inr (updateChild_ne_nil _ p cs)
    · rw [inhabKids_iff]
      intro kc hkc
      rcases mem_updateChild hkc with hm | ⟨c₀, hc₀, hm⟩
      · exact (inhabKids_iff cs).1 h kc hm
      · rw [hc₀]
        show inhabT (insertPath c₀ ps d)
        apply ih
        rcases hm with hm | hm
        · have := (inhabKids_iff cs).1 h (p, c₀) hm
          obtain ⟨cs₀, ts₀⟩ := c₀
          rw [inhabT] at this
          exact this.2
        · rw [hm]
          show inhabKids ([] : List (String × TrieNode))
          rw [inhabKids]
          trivial

theorem keysOK_trieOf (A : List (String × String)) : keysOKT (trieOf A) := by
  rw [trieOf]
  have H : ∀ (l : List (String × String)) (t : TrieNode), keysOKT t →
      keysOKT (l.foldl (fun t fd => insertPath t (splitParts fd.1) fd.2) t) := by
    intro l
    induction l with
    | nil => intro t h; exact h
    | cons fd rest ih =>
      intro t h
      exact ih _ (keysOK_insert (splitParts fd.1) t fd.2 h)
  exact H A emptyNode keysOKT_emptyNode

theorem slashOK_trieOf (A : List (String × String)) : slashOKT (trieOf A) := by
  rw [trieOf]
  have H : ∀ (l : List (String × String)) (t : TrieNode), slashOKT t →
      slashOKT (l.foldl (fun t fd => insertPath t (splitParts fd.1) fd.2) t) := by
    intro l
    induction l with
    | nil => intro t h; exact h
    | cons fd rest ih =>
      intro t h
      exact ih _ (slashOK_insert (splitParts fd.1) t fd.2
        (fun seg hs => mem_splitParts_noSlash fd.1 seg hs) h)
  exact H A emptyNode slashOKT_emptyNode

theorem inhab_trieOf {A : List (String × String)} (h : A ≠ []) : inhabT (trieOf A) := by
  rw [trieOf]
  have H : ∀ (l : List (String × String)) (t : TrieNode), inhabT t →
      inhabT (l.foldl (fun t fd => insertPath t (splitParts fd.1) fd.2) t) := by
    intro l
    induction l with
    | nil => intro t h2; exact h2
    | cons fd rest ih =>
      intro t h2
      apply ih
      apply inhab_insert
      obtain ⟨cs, ts⟩ := t
      rw [inhabT] at h2
      exact h2.2
  cases A with
  | nil => exact absurd rfl h
  | cons fd rest =>
    show inhabT (List.foldl _ (insertPath emptyNode (splitParts fd.1) fd.2) rest)
    apply H
    apply inhab_insert
    rw [emptyNode]
    show inhabKids ([] : List (String × TrieNode))
    rw [inhabKids]
    trivial

theorem mem_filesOf_trieOf {A : List (String × String)} {Fe : List String × String} :
    Fe ∈ filesOf (trieOf A) ↔ ∃ fd ∈ A, Fe = (splitParts fd.1, fd.2) := by
  rw [trieOf]
  have H : ∀ (l : List (String × String)) (t : TrieNode) (Fe : List String × String),
      Fe ∈ filesOf (l.foldl (fun t fd => insertPath t (splitParts fd.1) fd.2) t) ↔
        Fe ∈ filesOf t ∨ ∃ fd ∈ l, Fe = (splitParts fd.1, fd.2) := by
    intro l
    induction l with
    | nil => intro t Fe; simp
    | cons fd rest ih =>
      intro t Fe
      show Fe ∈ filesOf (rest.foldl _ (insertPath t (splitParts fd.1) fd.2)) ↔ _
      rw [ih]
      rw [mem_filesOf_insert (splitParts fd.1) t fd.2 Fe]
      constructor
      · intro h
        rcases h with (h | h) | h
        · exact Or.inl h
        · exact Or.inr ⟨fd, by simp, h⟩
        · rcases h with ⟨gd, hgd, hFe⟩
          exact Or.inr ⟨gd, by simp [hgd], hFe⟩
      · intro h
        rcases h with h | ⟨gd, hgd, hFe⟩
        · exact Or.inl (Or.inl h)
        · rcases List.mem_cons.1 hgd with hgd | hgd
          · exact Or.inl (Or.inr (by rw [hFe, hgd]))
          · exact Or.inr ⟨gd, hgd, hFe⟩
  rw [H A emptyNode Fe, filesOf_emptyNode]
  simp

theorem selectNodes_eq_map :
    ∀ (t : TrieNode) (parts : List String) (pl : Option String),
      selectNodes t parts pl =
        (selParts t parts pl).map (fun s => ⟨joinParts s.1, s.2.1, s.2.2⟩) := by
  intro t
  induction t using trie_ind with
  | step cs ts ih =>
    have hkids : ∀ (l : List (String × TrieNode)), (∀ kc ∈ l, kc ∈ cs) →
        ∀ parts pl, selectKids l parts pl =
          (selPartsKids l parts pl).map (fun s => ⟨joinParts s.1, s.2.1, s.2.2⟩) := by
      intro l
      induction l with
      | nil => intro _ parts pl; rw [selectKids, selPartsKids]; rfl
      | cons kc rest ihl =>
        intro hsub parts pl
        obtain ⟨k, c⟩ := kc
        rw [selectKids, selPartsKids, List.map_append]
        rw [ih k c (hsub (k, c) (by simp)), ihl (fun kc2 hm => hsub kc2 (by simp [hm]))]
    intro parts pl
    cases hl : labelOf (.mk cs ts) with
    | none =>
      simp only [selectNodes, selParts, hl]
      exact hkids cs (fun _ h => h) parts none
    | some l =>
      by_cases h : some l = pl
      · simp only [selectNodes, selParts, hl, if_pos h]
        exact hkids cs (fun _ h => h) parts (some l)
      · simp only [selectNodes, selParts, hl, if_neg h]
        rfl

theorem mem_selPartsKids {cs : List (String × TrieNode)} {parts : List String}
    {lbl : Option String} {s : List String × Bool × String} :
    s ∈ selPartsKids cs parts lbl ↔
      ∃ k c, (k, c) ∈ cs ∧ s ∈ selParts c (parts ++ [k]) lbl := by
  induction cs with
  | nil => rw [selPartsKids]; simp
  | cons kc rest ih =>
    obtain ⟨k, c⟩ := kc
    rw [selPartsKids]
    simp only [List.mem_append, ih]
    constructor
    · intro h
      rcases h with h | ⟨k2, c2, hm, hs⟩
      · exact ⟨k, c, by simp, h⟩
      · exact ⟨k2, c2, by simp [hm], hs⟩
    · intro ⟨k2, c2, hm, hs⟩
      rcases List.mem_cons.1 hm with hm | hm
      · obtain ⟨hk, hc⟩ := Prod.mk.injEq .. ▸ hm
        left
        rw [hk, hc] at hs
        exact hs
      · exact Or.inr ⟨k2, c2, hm, hs⟩

theorem selParts_emit {t : TrieNode} {parts : List String} {pl : Option String} {L : String}
    (hl : labelOf t = some L) (hne : some L ≠ pl) :
    selParts t parts pl = [(parts, t.children.isEmpty, L)] := by
  obtain ⟨cs, ts⟩ := t
  rw [selParts, hl]
  simp only [hne, if_neg]
  rfl

theorem selParts_recurse_none {t : TrieNode} {parts : List String}
    (hl : labelOf t = none) :
    selParts t parts none = selPartsKids t.children parts none := by
  obtain ⟨cs, ts⟩ := t
  rw [selParts, hl]
  rfl

theorem filesOf_ne_nil_of_inhab {t : TrieNode} (h : inhabT t) : filesOf t ≠ [] := by
  induction t using trie_ind with
  | step cs ts ih =>
    rw [inhabT] at h
    obtain ⟨hne, hkids⟩ := h
    rcases hne with hts | hcs
    · obtain ⟨d, rest, hd⟩ : ∃ d rest, ts = d :: rest := by
        cases ts with
        | nil => exact absurd rfl hts
        | cons d rest => exact ⟨d, rest, rfl⟩
      intro hnil
      have hmem : ([], d) ∈ filesOf (TrieNode.mk cs ts) :=
        mem_filesOf_mk.2 (Or.inl ⟨rfl, by simp [hd]⟩)
      rw [hnil] at hmem
      simp at hmem
    · obtain ⟨kc, rest, hc⟩ : ∃ kc rest, cs = kc :: rest := by
        cases cs with
        | nil => exact absurd rfl hcs
        | cons kc rest => exact ⟨kc, rest, rfl⟩
      have hinh : inhabT kc.2 := (inhabKids_iff cs).1 hkids kc (by simp [hc])
      obtain ⟨fd, frest, hf⟩ : ∃ fd frest, filesOf kc.2 = fd :: frest := by
        cases hff : filesOf kc.2 with
        | nil => exact absurd hff (ih kc.1 kc.2 (by simp [hc, Prod.mk.eta]) hinh)
        | cons fd frest => exact ⟨fd, frest, rfl⟩
      intro hnil
      have hmem : (kc.1 :: fd.1, fd.2) ∈ filesOf (TrieNode.mk cs ts) :=
        mem_filesOf_mk.2 (Or.inr ⟨kc.1, kc.2, fd.1, by simp [hc, Prod.mk.eta], rfl, by simp [hf]⟩)
      rw [hnil] at hmem
      simp at hmem

theorem keysOK_child_unique {cs : List (String × TrieNode)} {ts : List String}
    (h : keysOKT (.mk cs ts)) {k : String} {c c2 : TrieNode}
    (h1 : (k, c) ∈ cs) (h2 : (k, c2) ∈ cs) : c = c2 := by
  rw [keysOKT] at h
  have hp := h.1
  clear h
  induction cs with
  | nil => simp at h1
  | cons kc rest ih =>
    obtain ⟨k', c'⟩ := kc
    simp only [List.map_cons, List.pairwise_cons] at hp
    obtain ⟨hk', hrest⟩ := hp
    rcases List.mem_cons.1 h1 with hm1 | hm1
    · rcases List.mem_cons.1 h2 with hm2 | hm2
      · obtain ⟨_, hc1⟩ := Prod.mk.injEq .. ▸ hm1
        obtain ⟨_, hc2⟩ := Prod.mk.injEq .. ▸ hm2
        rw [hc1, hc2]
      · obtain ⟨hk1, _⟩ := Prod.mk.injEq .. ▸ hm1
        have : strLtB k' k = true := hk' k (List.mem_map.2 ⟨(k, c2), hm2, rfl⟩)
        rw [← hk1] at this
        rw [strLtB_irrefl] at this
        simp at this
    · rcases List.mem_cons.1 h2 with hm2 | hm2
      · obtain ⟨hk2, _⟩ := Prod.mk.injEq .. ▸ hm2
        have : strLtB k' k = true := hk' k (List.mem_map.2 ⟨(k, c), hm1, rfl⟩)
        rw [← hk2] at this
        rw [strLtB_irrefl] at this
        simp at this
      · exact ih hm1 hm2 hrest

theorem children_mk (cs : List (String × TrieNode)) (ts : List String) :
    (TrieNode.mk cs ts).children = cs := rfl

theorem terminal_dbs_mk (cs : List (String × TrieNode)) (ts : List String) :
    (TrieNode.mk cs ts).terminal_dbs = ts := rfl

theorem selParts_shape :
    ∀ (t : TrieNode) (parts : List String) (pl : Option String)
      (s : List String × Bool × String), s ∈ selParts t parts pl →
      ∃ suf, s.1 = parts ++ suf := by
  intro t
  induction t using trie_ind with
  | step cs ts ih =>
    intro parts pl s hs
    cases hl : labelOf (.mk cs ts) with
    | some l =>
      by_cases h : some l = pl
      · simp only [selParts, hl, if_pos h] at hs
        rcases mem_selPartsKids.1 hs with ⟨k, c, hm, hs2⟩
        rcases ih k c hm (parts ++ [k]) (some l) s hs2 with ⟨suf, hsuf⟩
        exact ⟨k :: suf, by rw [hsuf]; simp⟩
      · simp only [selParts, hl, if_neg h] at hs
        simp at hs
        exact ⟨[], by rw [hs]; simp⟩
    | none =>
      simp only [selParts, hl] at hs
      rcases mem_selPartsKids.1 hs with ⟨k, c, hm, hs2⟩
      rcases ih k c hm (parts ++ [k]) none s hs2 with ⟨suf, hsuf⟩
      exact ⟨k :: suf, by rw [hsuf]; simp⟩

theorem selParts_slashfree :
    ∀ (t : TrieNode) (parts : List String) (pl : Option String)
      (s : List String × Bool × String),
      slashOKT t → (∀ seg ∈ parts, '/' ∉ seg.data) → s ∈ selParts t parts pl →
      ∀ seg ∈ s.1, '/' ∉ seg.data := by
  intro t
  induction t using trie_ind with
  | step cs ts ih =>
    intro parts pl s hslash hparts hs
    rw [slashOKT] at hslash
    have hrec : ∀ lbl, s ∈ selPartsKids cs parts lbl → ∀ seg ∈ s.1, '/' ∉ seg.data := by
      intro lbl hs2
      rcases mem_selPartsKids.1 hs2 with ⟨k, c, hm, hs3⟩
      apply ih k c hm (parts ++ [k]) lbl s ((slashOKKids_iff cs).1 hslash.2 (k, c) hm)
      · intro seg hseg
        rcases List.mem_append.1 hseg with hseg | hseg
        · exact hparts seg hseg
        · simp at hseg
          rw [hseg]
          exact hslash.1 (k, c) hm
      · exact hs3
    cases hl : labelOf (.mk cs ts) with
    | some l =>
      by_cases h : some l = pl
      · simp only [selParts, hl, if_pos h] at hs
        exact hrec (some l) hs
      · simp only [selParts, hl, if_neg h] at hs
        simp at hs
        rw [hs]
        exact hparts
    | none =>
      simp only [selParts, hl] at hs
      exact hrec none hs

theorem selParts_witness :
    ∀ (t : TrieNode) (parts : List String) (pl : Option String)
      (s : List String × Bool × String), inhabT t → s ∈ selParts t parts pl →
      ∃ F, (F, s.2.2) ∈ filesOf t ∧
        (if s.2.1 = true then parts ++ F = s.1
         else ∃ R, R ≠ [] ∧ parts ++ F = s.1 ++ R) := by
  intro t
  induction t using trie_ind with
  | step cs ts ih =>
    intro parts pl s hinh hs
    rw [inhabT] at hinh
    have hrec : ∀ lbl, s ∈ selPartsKids cs parts lbl →
        ∃ F, (F, s.2.2) ∈ filesOf (TrieNode.mk cs ts) ∧
          (if s.2.1 = true then parts ++ F = s.1
           else ∃ R, R ≠ [] ∧ parts ++ F = s.1 ++ R) := by
      intro lbl hs2
      rcases mem_selPartsKids.1 hs2 with ⟨k, c, hm, hs3⟩
      rcases ih k c hm (parts ++ [k]) lbl s ((inhabKids_iff cs).1 hinh.2 (k, c) hm) hs3
        with ⟨F', hmem, hmatch⟩
      refine ⟨k :: F', mem_filesOf_mk.2 (Or.inr ⟨k, c, F', hm, rfl, hmem⟩), ?_⟩
      by_cases hleaf : s.2.1 = true
      · rw [if_pos hleaf] at hmatch ⊢
        rw [← hmatch]
        simp
      · rw [if_neg hleaf] at hmatch ⊢
        rcases hmatch with ⟨R, hR, heq⟩
        exact ⟨R, hR, by rw [← heq]; simp⟩
    cases hl : labelOf (.mk cs ts) with
    | some l =>
      by_cases h : some l = pl
      · simp only [selParts, hl, if_pos h] at hs
        exact hrec (some l) hs
      · simp only [selParts, hl, if_neg h] at hs
        simp at hs
        subst hs
        by_cases hcs : cs = []
        · obtain ⟨d, trest, hts⟩ : ∃ d trest, ts = d :: trest := by
            rcases hinh.1 with hts | hcs2
            · cases ts with
              | nil => exact absurd rfl hts
              | cons d trest => exact ⟨d, trest, rfl⟩
            · exact absurd hcs hcs2
          have hd : d = l := by
            rcases labelOf_eq_some_iff.1 hl with ⟨_, _, hterm, _⟩
            exact hterm d (by simp [hts])
          refine ⟨[], mem_filesOf_mk.2 (Or.inl ⟨rfl, ?_⟩), ?_⟩
          · show l ∈ ts
            rw [hts, ← hd]
            simp
          · simp [hcs]
        · obtain ⟨kc, rest, hcsr⟩ : ∃ kc rest, cs = kc :: rest := by
            cases cs with
            | nil => exact absurd rfl hcs
            | cons kc rest => exact ⟨kc, rest, rfl⟩
          have hinhc : inhabT kc.2 := (inhabKids_iff cs).1 hinh.2 kc (by simp [hcsr])
          obtain ⟨fd, frest, hf⟩ : ∃ fd frest, filesOf kc.2 = fd :: frest := by
            cases hff : filesOf kc.2 with
            | nil => exact absurd hff (filesOf_ne_nil_of_inhab hinhc)
            | cons fd frest => exact ⟨fd, frest, rfl⟩
          have hmem : (kc.1 :: fd.1, fd.2) ∈ filesOf (TrieNode.mk cs ts) :=
            mem_filesOf_mk.2 (Or.inr ⟨kc.1, kc.2, fd.1, by simp [hcsr, Prod.mk.eta], rfl, by simp [hf]⟩)
          have hfd : fd.2 = l := labelOf_some_all_files hl (kc.1 :: fd.1, fd.2) hmem
          refine ⟨kc.1 :: fd.1, ?_, ?_⟩
          · show (kc.1 :: fd.1, l) ∈ filesOf (TrieNode.mk cs ts)
            rw [← hfd]
            exact hmem
          · have hemp : cs.isEmpty = false := by simp [hcsr]
            show (if (parts, cs.isEmpty, l).2.1 = true then _ else _)
            rw [show (parts, cs.isEmpty, l).2.1 = false from hemp]
            simp only [Bool.false_eq_true, if_neg, if_false]
            exact ⟨kc.1 :: fd.1, by simp, by simp⟩
    | none =>
      simp only [selParts, hl] at hs
      exact hrec none hs

theorem selParts_excl :
    ∀ (t : TrieNode) (parts : List String) (pl : Option String)
      (s : List String × Bool × String), keysOKT t → s ∈ selParts t parts pl →
      ∀ F d, (F, d) ∈ filesOf t → (∃ R, parts ++ F = s.1 ++ R) → s.2.2 = d := by
  intro t
  induction t using trie_ind with
  | step cs ts ih =>
    intro parts pl s hkeys hs F d hmem hpre
    have hrec : ∀ lbl, s ∈ selPartsKids cs parts lbl → s.2.2 = d := by
      intro lbl hs2
      rcases mem_selPartsKids.1 hs2 with ⟨k, c, hm, hs3⟩
      rcases selParts_shape c (parts ++ [k]) lbl s hs3 with ⟨suf, hsuf⟩
      rcases hpre with ⟨R, hR⟩
      rw [hsuf] at hR
      have hF : F = k :: (suf ++ R) := by
        have : parts ++ F = parts ++ (k :: (suf ++ R)) := by
          rw [hR]
          simp
        exact List.append_cancel_left this
      rcases mem_filesOf_mk.1 hmem with ⟨hFnil, _⟩ | ⟨k2, c2, F', hm2, hF2, hmem2⟩
      · rw [hF] at hFnil
        simp at hFnil
      · rw [hF] at hF2
        obtain ⟨hk2, hF'⟩ := List.cons.inj hF2
        subst hk2
        have hc2 : c2 = c := keysOK_child_unique hkeys hm2 hm
        rw [hc2] at hmem2
        apply ih k c hm (parts ++ [k]) lbl s
        · rw [keysOKT] at hkeys
          exact (keysOKKids_iff cs).1 hkeys.2 (k, c) hm
        · exact hs3
        · exact hmem2
        · refine ⟨R, ?_⟩
          rw [hsuf, ← hF']
          simp
    cases hl : labelOf (.mk cs ts) with
    | some l =>
      by_cases h : some l = pl
      · simp only [selParts, hl, if_pos h] at hs
        exact hrec (some l) hs
      · simp only [selParts, hl, if_neg h] at hs
        simp at hs
        subst hs
        show l = d
        exact (labelOf_some_all_files hl (F, d) hmem).symm
    | none =>
      simp only [selParts, hl] at hs
      exact hrec none hs

theorem selParts_nonoverlap :
    ∀ (t : TrieNode) (parts : List String) (pl : Option String)
      (s1 s2 : List String × Bool × String), keysOKT t →
      s1 ∈ selParts t parts pl → s2 ∈ selParts t parts pl → s1 ≠ s2 →
      ∀ R, s2.1 ≠ s1.1 ++ R := by
  intro t
  induction t using trie_ind with
  | step cs ts ih =>
    intro parts pl s1 s2 hkeys hs1 hs2 hne R
    have hrec : ∀ lbl, s1 ∈ selPartsKids cs parts lbl → s2 ∈ selPartsKids cs parts lbl →
        s2.1 ≠ s1.1 ++ R := by
      intro lbl hk1 hk2
      rcases mem_selPartsKids.1 hk1 with ⟨k1, c1, hm1, hin1⟩
      rcases mem_selPartsKids.1 hk2 with ⟨k2, c2, hm2, hin2⟩
      rcases selParts_shape c1 (parts ++ [k1]) lbl s1 hin1 with ⟨suf1, hsuf1⟩
      rcases selParts_shape c2 (parts ++ [k2]) lbl s2 hin2 with ⟨suf2, hsuf2⟩
      by_cases hksame : k1 = k2
      · subst hksame
        have hcsame : c1 = c2 := keysOK_child_unique hkeys hm1 hm2
        subst hcsame
        apply ih k1 c1 hm1 (parts ++ [k1]) lbl s1 s2 ?_ hin1 hin2 hne R
        rw [keysOKT] at hkeys
        exact (keysOKKids_iff cs).1 hkeys.2 (k1, c1) hm1
      · intro hcontra
        rw [hsuf1, hsuf2] at hcontra
        simp only [List.append_assoc, List.singleton_append] at hcontra
        have := List.append_cancel_left hcontra
        exact hksame ((List.cons.inj this).1).symm
    cases hl : labelOf (.mk cs ts) with
    | some l =>
      by_cases h : some l = pl
      · simp only [selParts, hl, if_pos h] at hs1 hs2
        exact hrec (some l) hs1 hs2
      · simp only [selParts, hl, if_neg h] at hs1 hs2
        simp at hs1 hs2
        rw [hs1, hs2] at hne
        exact absurd rfl hne
    | none =>
      simp only [selParts, hl] at hs1 hs2
      exact hrec none hs1 hs2

theorem selParts_cover :
    ∀ (t : TrieNode) (parts : List String),
      inhabT t →
      (∀ F d G e, (F, d) ∈ filesOf t → (G, e) ∈ filesOf t →
        ∀ R, R ≠ [] → G = F ++ R → False) →
      (∀ F d e, (F, d) ∈ filesOf t → (F, e) ∈ filesOf t → d = e) →
      (∀ F d, (F, d) ∈ filesOf t → d ≠ "__MIXED__") →
      labelOf t = none →
      ∀ F d, (F, d) ∈ filesOf t →
        ∃ s ∈ selParts t parts none, s.2.2 = d ∧
          (if s.2.1 = true then parts ++ F = s.1
           else ∃ R, R ≠ [] ∧ parts ++ F = s.1 ++ R) := by
  intro t
  induction t using trie_ind with
  | step cs ts ih =>
    intro parts hinh hpf huniq hmix hl F d hmem
    rw [inhabT] at hinh
    rw [selParts_recurse_none hl, children_mk]
    rcases mem_filesOf_mk.1 hmem with ⟨hF, hd⟩ | ⟨k, c, F', hm, hF, hmem'⟩
    · by_cases hcs : cs = []
      · exfalso
        have hsome : labelOf (TrieNode.mk cs ts) = some d := by
          apply labelOf_eq_some_iff.2
          refine ⟨hmix F d hmem, Or.inl (List.ne_nil_of_mem hd), ?_, ?_⟩
          · intro x hx
            exact huniq [] x d (mem_filesOf_mk.2 (Or.inl ⟨rfl, hx⟩)) (hF ▸ hmem)
          · intro kc hkc
            rw [hcs] at hkc
            simp at hkc
        rw [hl] at hsome
        cases hsome
      · exfalso
        obtain ⟨kc, rest, hcsr⟩ : ∃ kc rest, cs = kc :: rest := by
          cases cs with
          | nil => exact absurd rfl hcs
          | cons kc rest => exact ⟨kc, rest, rfl⟩
        have hinhc : inhabT kc.2 := (inhabKids_iff cs).1 hinh.2 kc (by simp [hcsr])
        obtain ⟨fd, frest, hf⟩ : ∃ fd frest, filesOf kc.2 = fd :: frest := by
          cases hff : filesOf kc.2 with
          | nil => exact absurd hff (filesOf_ne_nil_of_inhab hinhc)
          | cons fd frest => exact ⟨fd, frest, rfl⟩
        have hmem2 : (kc.1 :: fd.1, fd.2) ∈ filesOf (TrieNode.mk cs ts) :=
          mem_filesOf_mk.2 (Or.inr ⟨kc.1, kc.2, fd.1, by simp [hcsr, Prod.mk.eta], rfl, by simp [hf]⟩)
        exact hpf [] d (kc.1 :: fd.1) fd.2 (hF ▸ hmem) hmem2 (kc.1 :: fd.1) (by simp) (by simp)
    · have hlift : ∀ G e, (G, e) ∈ filesOf c → (k :: G, e) ∈ filesOf (TrieNode.mk cs ts) :=
        fun G e hg => mem_filesOf_mk.2 (Or.inr ⟨k, c, G, hm, rfl, hg⟩)
      cases hc : labelOf c with
      | some L =>
        have hemit : selParts c (parts ++ [k]) none =
            [(parts ++ [k], c.children.isEmpty, L)] :=
          selParts_emit hc (by simp)
        have hdL : d = L := labelOf_some_all_files hc (F', d) hmem'
        refine ⟨(parts ++ [k], c.children.isEmpty, L),
          mem_selPartsKids.2 ⟨k, c, hm, by rw [hemit]; simp⟩, hdL.symm, ?_⟩
        by_cases hleaf : c.children.isEmpty = true
        · have hcnil : c.children = [] := by
            obtain ⟨cs2, ts2⟩ := c
            rw [children_mk] at hleaf ⊢
            simpa using hleaf
          have hF' : F' = [] := by
            obtain ⟨cs2, ts2⟩ := c
            rw [children_mk] at hcnil
            subst hcnil
            rcases mem_filesOf_mk.1 hmem' with ⟨h1, _⟩ | ⟨k2, c2, F2, hm2, _, _⟩
            · exact h1
            · simp at hm2
          rw [if_pos hleaf]
          show parts ++ F = parts ++ [k]
          rw [hF, hF']
        · rw [if_neg (by simpa using hleaf)]
          by_cases hF' : F' = []
          · exfalso
            have hcne : c.children ≠ [] := by
              intro hcc
              apply hleaf
              rw [hcc]
              rfl
            obtain ⟨kc2, rest2, hc2⟩ : ∃ kc2 rest2, c.children = kc2 :: rest2 := by
              cases hcc : c.children with
              | nil => exact absurd hcc hcne
              | cons kc2 rest2 => exact ⟨kc2, rest2, rfl⟩
            have hinhc2 : inhabT kc2.2 := by
              obtain ⟨cs2, ts2⟩ := c
              rw [children_mk] at hc2
              have hi := (inhabKids_iff cs).1 hinh.2 (k, TrieNode.mk cs2 ts2) hm
              rw [inhabT] at hi
              exact (inhabKids_iff cs2).1 hi.2 kc2 (by simp [hc2])
            obtain ⟨fd, frest, hfd⟩ : ∃ fd frest, filesOf kc2.2 = fd :: frest := by
              cases hff : filesOf kc2.2 with
              | nil => exact absurd hff (filesOf_ne_nil_of_inhab hinhc2)
              | cons fd frest => exact ⟨fd, frest, rfl⟩
            have hdeep : (kc2.1 :: fd.1, fd.2) ∈ filesOf c := by
              obtain ⟨cs2, ts2⟩ := c
              rw [children_mk] at hc2
              exact mem_filesOf_mk.2 (Or.inr ⟨kc2.1, kc2.2, fd.1, by simp [hc2, Prod.mk.eta], rfl, by simp [hfd]⟩)
            apply hpf (k :: F') d (k :: kc2.1 :: fd.1) fd.2 (hF ▸ hmem) (hlift _ _ hdeep)
              (kc2.1 :: fd.1) (by simp)
            rw [hF']
            simp
          · refine ⟨F', hF', ?_⟩
            rw [hF]
            simp
      | none =>
        have hcall := ih k c hm (parts ++ [k])
          ((inhabKids_iff cs).1 hinh.2 (k, c) hm)
          (fun G e G2 e2 h1 h2 R hR heq =>
            hpf (k :: G) e (k :: G2) e2 (hlift G e h1) (hlift G2 e2 h2) R hR (by rw [heq]; simp))
          (fun G e e2 h1 h2 => huniq (k :: G) e e2 (hlift G e h1) (hlift G e2 h2))
          (fun G e h1 => hmix (k :: G) e (hlift G e h1))
          hc F' d hmem'
        rcases hcall with ⟨s, hsmem, hsdb, hsmatch⟩
        refine ⟨s, mem_selPartsKids.2 ⟨k, c, hm, hsmem⟩, hsdb, ?_⟩
        by_cases hleaf : s.2.1 = true
        · rw [if_pos hleaf] at hsmatch ⊢
          rw [hF, ← hsmatch]
          simp
        · rw [if_neg hleaf] at hsmatch ⊢
          rcases hsmatch with ⟨R, hR, heq⟩
          refine ⟨R, hR, ?_⟩
          rw [hF, ← heq]
          simp

theorem map_mk_map_data (Q : List String) : (Q.map String.data).map String.mk = Q := by
  rw [List.map_map]
  have h : (String.mk ∘ String.data) = id := funext fun s => by cases s; rfl
  rw [h, List.map_id]

theorem joinSl_append (P S : List (List Char)) (hP : P ≠ []) (hS : S ≠ []) :
    joinSl (P ++ S) = joinSl P ++ '/' :: joinSl S := by
  induction P with
  | nil => exact absurd rfl hP
  | cons p P' ih =>
    cases P' with
    | nil =>
      rw [show ([p] ++ S) = p :: S from rfl, joinSl_cons_ne p S hS]
      rfl
    | cons q P'' =>
      rw [show ((p :: q :: P'') ++ S) = p :: ((q :: P'') ++ S) from rfl]
      rw [joinSl_cons_ne p _ (by simp), ih (by simp), joinSl_cons_cons]
      simp

theorem splitParts_joinParts {Q : List String} (hQ : Q ≠ [])
    (hs : ∀ seg ∈ Q, '/' ∉ seg.data) : splitParts (joinParts Q) = Q := by
  show (splitSl (joinSl (Q.map String.data))).map String.mk = Q
  rw [splitSl_joinSl (Q.map String.data) (by simpa using hQ) ?_]
  · exact map_mk_map_data Q
  · intro p hp
    rcases List.mem_map.1 hp with ⟨seg, hseg, rfl⟩
    exact hs seg hseg

/-- The leaf pattern of a boundary path matches exactly the path whose
segments are the boundary's segments. -/
theorem matches_leaf_iff {Q : List String} {f : String} (hQ : Q ≠ [])
    (hs : ∀ seg ∈ Q, '/' ∉ seg.data) :
    regexMatches (regexForPath (joinParts Q) true) f = true ↔ splitParts f = Q := by
  rw [regexMatches_leaf]
  constructor
  · intro h
    rw [h]
    exact splitParts_joinParts hQ hs
  · intro h
    have h2 := congrArg joinParts h
    rw [joinParts_splitParts] at h2
    rw [h2]

/-- The directory pattern of a boundary path matches exactly the paths
strictly below the boundary (segment-wise). -/
theorem matches_dir_iff {Q : List String} {f : String} (hQ : Q ≠ [])
    (hs : ∀ seg ∈ Q, '/' ∉ seg.data) :
    regexMatches (regexForPath (joinParts Q) false) f = true ↔
      ∃ R, R ≠ [] ∧ splitParts f = Q ++ R := by
  rw [regexMatches_dir]
  constructor
  · intro ⟨r, hr⟩
    refine ⟨(splitSl r).map String.mk, ?_, ?_⟩
    · intro hnil
      rcases List.map_eq_nil_iff.1 hnil with h
      exact splitSl_ne_nil r h
    · show (splitSl f.data).map String.mk = Q ++ _
      rw [hr]
      rw [show (joinParts Q).data = joinSl (Q.map String.data) from rfl]
      rw [splitSl_append]
      rw [splitSl_joinSl (Q.map String.data) (by simpa using hQ) ?_]
      · rw [List.map_append, map_mk_map_data]
      · intro p hp
        rcases List.mem_map.1 hp with ⟨seg, hseg, rfl⟩
        exact hs seg hseg
  · intro ⟨R, hR, hsplit⟩
    have hf : f = joinParts (Q ++ R) := by
      have h2 := congrArg joinParts hsplit
      rw [joinParts_splitParts] at h2
      exact h2
    refine ⟨joinSl (R.map String.data), ?_⟩
    rw [hf]
    show joinSl ((Q ++ R).map String.data) = joinSl (Q.map String.data) ++ '/' :: joinSl (R.map String.data)
    rw [List.map_append]
    exact joinSl_append _ _ (by simpa using hQ) (by simpa using hR)

theorem segPref_append (P R : List String) : segPref P (P ++ R) := by
  show List.isPrefixOf P (P ++ R) = true
  induction P with
  | nil => simp [List.isPrefixOf]
  | cons a P' ih => simp [List.isPrefixOf, ih]

theorem nodup_keys_pair {A : List (String × String)}
    (hnodup : (A.map Prod.fst).Nodup) {fd gd : String × String}
    (hfd : fd ∈ A) (hgd : gd ∈ A) (heq : fd.1 = gd.1) : fd = gd := by
  induction A with
  | nil => simp at hfd
  | cons a rest ih =>
    simp only [List.map_cons, List.nodup_cons] at hnodup
    rcases List.mem_cons.1 hfd with h1 | h1
    · rcases List.mem_cons.1 hgd with h2 | h2
      · rw [h1, h2]
      · exfalso
        apply hnodup.1
        rw [← h1, heq]
        exact List.mem_map.2 ⟨gd, h2, rfl⟩
    · rcases List.mem_cons.1 hgd with h2 | h2
      · exfalso
        apply hnodup.1
        rw [← h2, ← heq]
        exact List.mem_map.2 ⟨fd, h1, rfl⟩
      · exact ih hnodup.2 h1 h2

theorem pfree_trieOf {A : List (String × String)}
    (hpf : ∀ fd ∈ A, ∀ gd ∈ A, fd.1 ≠ gd.1 →
      ¬ segPref (splitParts fd.1) (splitParts gd.1)) :
    ∀ F d G e, (F, d) ∈ filesOf (trieOf A) → (G, e) ∈ filesOf (trieOf A) →
      ∀ R, R ≠ [] → G = F ++ R → False := by
  intro F d G e hF hG R hR heq
  rcases mem_filesOf_trieOf.1 hF with ⟨fd, hfd, hFfd⟩
  rcases mem_filesOf_trieOf.1 hG with ⟨gd, hgd, hGgd⟩
  obtain ⟨hF1, _⟩ := Prod.mk.injEq .. ▸ hFfd
  obtain ⟨hG1, _⟩ := Prod.mk.injEq .. ▸ hGgd
  have hne : fd.1 ≠ gd.1 := by
    intro hc
    have : F = G := by rw [hF1, hG1, hc]
    rw [this] at heq
    have : R = [] := by
      have h2 : G ++ [] = G ++ R := by simpa using heq
      exact (List.append_cancel_left h2).symm
    exact hR this
  apply hpf fd hfd gd hgd hne
  rw [← hF1, ← hG1, heq]
  exact segPref_append F R

theorem uniq_trieOf {A : List (String × String)}
    (hnodup : (A.map Prod.fst).Nodup) :
    ∀ F d e, (F, d) ∈ filesOf (trieOf A) → (F, e) ∈ filesOf (trieOf A) → d = e := by
  intro F d e hd he
  rcases mem_filesOf_trieOf.1 hd with ⟨fd, hfd, hFfd⟩
  rcases mem_filesOf_trieOf.1 he with ⟨gd, hgd, hFgd⟩
  obtain ⟨hF1, hd1⟩ := Prod.mk.injEq .. ▸ hFfd
  obtain ⟨hG1, he1⟩ := Prod.mk.injEq .. ▸ hFgd
  have heq : fd.1 = gd.1 := splitParts_inj (by rw [← hF1, ← hG1])
  have := nodup_keys_pair hnodup hfd hgd heq
  rw [hd1, he1, this]

theorem nomix_trieOf {A : List (String × String)}
    (hmix : ∀ fd ∈ A, fd.2 ≠ "__MIXED__") :
    ∀ F d, (F, d) ∈ filesOf (trieOf A) → d ≠ "__MIXED__" := by
  intro F d hmem
  rcases mem_filesOf_trieOf.1 hmem with ⟨fd, hfd, hFfd⟩
  obtain ⟨_, hd1⟩ := Prod.mk.injEq .. ▸ hFfd
  rw [hd1]
  exact hmix fd hfd

theorem labelOf_trieOf_none {A : List (String × String)}
    (h2 : ∃ fd ∈ A, ∃ gd ∈ A, fd.2 ≠ gd.2) : labelOf (trieOf A) = none := by
  rcases h2 with ⟨fd, hfd, gd, hgd, hne⟩
  cases hl : labelOf (trieOf A) with
  | none => rfl
  | some L =>
    exfalso
    have h1 := labelOf_some_all_files hl (splitParts fd.1, fd.2)
      (mem_filesOf_trieOf.2 ⟨fd, hfd, rfl⟩)
    have h2 := labelOf_some_all_files hl (splitParts gd.1, gd.2)
      (mem_filesOf_trieOf.2 ⟨gd, hgd, rfl⟩)
    exact hne (h1.trans h2.symm)

theorem mem_selsOf {A : List (String × String)} {sel : NodeSelection} :
    sel ∈ selsOf A ↔ ∃ s ∈ selParts (trieOf A) [] none,
      sel = ⟨joinParts s.1, s.2.1, s.2.2⟩ := by
  rw [selsOf, selectNodes_eq_map]
  simp only [List.mem_map]
  constructor
  · intro ⟨s, hs, heq⟩
    exact ⟨s, hs, heq.symm⟩
  · intro ⟨s, hs, heq⟩
    exact ⟨s, hs, heq.symm⟩

theorem mem_dbPatterns {A : List (String × String)} {D pat : String} :
    pat ∈ dbPatterns A D ↔ ∃ sel ∈ selsOf A, sel.db = D ∧
      pat = regexForPath sel.path sel.is_file_leaf := by
  rw [dbPatterns]
  simp only [List.mem_map, List.mem_filter, beq_iff_eq]
  constructor
  · intro ⟨sel, ⟨hm, hdb⟩, heq⟩
    exact ⟨sel, hm, hdb, heq.symm⟩
  · intro ⟨sel, hm, hdb, heq⟩
    exact ⟨sel, ⟨hm, hdb⟩, heq.symm⟩

/-- When the root is unlabeled, every emitted boundary has a nonempty
path whose segments are slash-free. -/
theorem selParts_root_shape {A : List (String × String)}
    {s : List String × Bool × String} (hroot : labelOf (trieOf A) = none)
    (hs : s ∈ selParts (trieOf A) [] none) :
    s.1 ≠ [] ∧ ∀ seg ∈ s.1, '/' ∉ seg.data := by
  constructor
  · rw [selParts_recurse_none hroot] at hs
    rcases mem_selPartsKids.1 hs with ⟨k, c, hm, hs2⟩
    rcases selParts_shape c ([] ++ [k]) none s hs2 with ⟨suf, hsuf⟩
    rw [hsuf]
    simp
  · exact selParts_slashfree (trieOf A) [] none s (slashOK_trieOf A) (by simp) hs

/-- Claim C1 (amended): for every assignment map in which no file's path
is a proper segment-wise prefix of another file's path, no database key is
the internal sentinel `"__MIXED__"`, and at least two distinct database
keys occur, every file is matched by some rendered pattern of its own
database's boundary selections, and by no rendered pattern of any other
database. -/
theorem C1_coverage_exclusivity (A : List (String × String))
    (hnodup : (A.map Prod.fst).Nodup)
    (hpf : ∀ fd ∈ A, ∀ gd ∈ A, fd.1 ≠ gd.1 →
      ¬ segPref (splitParts fd.1) (splitParts gd.1))
    (hmix : ∀ fd ∈ A, fd.2 ≠ "__MIXED__")
    (h2 : ∃ fd ∈ A, ∃ gd ∈ A, fd.2 ≠ gd.2) :
    ∀ fd ∈ A, (∃ pat ∈ dbPatterns A fd.2, regexMatches pat fd.1 = true) ∧
      (∀ D, D ≠ fd.2 → ∀ pat ∈ dbPatterns A D, regexMatches pat fd.1 = false) := by
  intro fd hfd
  have hAne : A ≠ [] := List.ne_nil_of_mem hfd
  have hroot : labelOf (trieOf A) = none := labelOf_trieOf_none h2
  have hinh := inhab_trieOf hAne
  have hpfT := pfree_trieOf hpf
  have huniqT := uniq_trieOf hnodup
  have hmixT := nomix_trieOf hmix
  constructor
  · rcases selParts_cover (trieOf A) [] hinh hpfT huniqT hmixT hroot
      (splitParts fd.1) fd.2 (mem_filesOf_trieOf.2 ⟨fd, hfd, rfl⟩)
      with ⟨s, hsmem, hsdb, hsmatch⟩
    obtain ⟨hne, hsf⟩ := selParts_root_shape hroot hsmem
    refine ⟨regexForPath (joinParts s.1) s.2.1, ?_, ?_⟩
    · exact mem_dbPatterns.2
        ⟨⟨joinParts s.1, s.2.1, s.2.2⟩, mem_selsOf.2 ⟨s, hsmem, rfl⟩, hsdb, rfl⟩
    · by_cases hleaf : s.2.1 = true
      · rw [if_pos hleaf] at hsmatch
        rw [hleaf]
        apply (matches_leaf_iff hne hsf).2
        simpa using hsmatch
      · rw [if_neg hleaf] at hsmatch
        have hfalse : s.2.1 = false := by
          revert hleaf
          cases s.2.1 <;> simp
        rw [hfalse]
        rcases hsmatch with ⟨R, hR, heq⟩
        apply (matches_dir_iff hne hsf).2
        exact ⟨R, hR, by simpa using heq⟩
  · intro D hD pat hpat
    by_contra hcon
    have hmatch : regexMatches pat fd.1 = true := by
      revert hcon
      cases regexMatches pat fd.1 <;> simp
    rcases mem_dbPatterns.1 hpat with ⟨sel, hselmem, hseldb, hpateq⟩
    rcases mem_selsOf.1 hselmem with ⟨s, hsmem, hseleq⟩
    obtain ⟨hne, hsf⟩ := selParts_root_shape hroot hsmem
    have hpath : sel.path = joinParts s.1 := by rw [hseleq]
    have hleafeq : sel.is_file_leaf = s.2.1 := by rw [hseleq]
    have hdbeq : sel.db = s.2.2 := by rw [hseleq]
    have hpre : ∃ R, ([] : List String) ++ splitParts fd.1 = s.1 ++ R := by
      rw [hpateq, hpath, hleafeq] at hmatch
      by_cases hleaf : s.2.1 = true
      · rw [hleaf] at hmatch
        have := (matches_leaf_iff hne hsf).1 hmatch
        exact ⟨[], by simp [this]⟩
      · have hfalse : s.2.1 = false := by
          revert hleaf
          cases s.2.1 <;> simp
        rw [hfalse] at hmatch
        rcases (matches_dir_iff hne hsf).1 hmatch with ⟨R, _, hsp⟩
        exact ⟨R, by simp [hsp]⟩
    have hexcl := selParts_excl (trieOf A) [] none s (keysOK_trieOf A) hsmem
      (splitParts fd.1) fd.2 (mem_filesOf_trieOf.2 ⟨fd, hfd, rfl⟩) hpre
    apply hD
    rw [← hseldb, hdbeq, hexcl]

/-- Claim C3 (amended): provided the shared key is not the internal
sentinel `"__MIXED__"`, a trie node's label after `annotate_labels` is
`some k` exactly when `k` is the single database key shared by the node's
own terminal set and every child's label (at a node having a terminal
entry or a child); consequently the label is `None` whenever the terminal
set has more than one key, a child's label disagrees, or a child has no
single label. -/
theorem C3_labeling_correctness (n : TrieNode) (k : String) (hk : k ≠ "__MIXED__") :
    labelOf n = some k ↔ specAgree n k := by
  obtain ⟨cs, ts⟩ := n
  rw [specAgree, children_mk, terminal_dbs_mk, labelOf_eq_some_iff]
  constructor
  · intro ⟨_, hne, hts, hcs⟩
    refine ⟨hts, ?_, hne⟩
    intro kc hkc
    have hlk := hcs kc hkc
    cases hl : labelOf kc.2 with
    | none =>
      simp only [labelStr, hl] at hlk
      exact absurd hlk.symm hk
    | some l =>
      simp only [labelStr, hl] at hlk
      rw [hlk]
  · intro ⟨hts, hcs, hne⟩
    refine ⟨hk, hne, hts, ?_⟩
    intro kc hkc
    rw [labelStr, hcs kc hkc]

/-- Witness for C3 at a concrete one-node trie. -/
theorem C3_labeling_correctness_witness :
    ("d" : String) ≠ "__MIXED__" ∧
      (labelOf (TrieNode.mk [] ["d"]) = some "d" ↔ specAgree (TrieNode.mk [] ["d"]) "d") :=
  ⟨by decide, C3_labeling_correctness (TrieNode.mk [] ["d"]) "d" (by decide)⟩

/-- Counterexample to C3 as stated: at a node whose terminal set is the
singleton `{"__MIXED__"}` (no children), the terminal set and all child
labels agree on the single key `"__MIXED__"`, yet the label is `None`. -/
theorem C3_labeling_correctness_cex :
    specAgree (TrieNode.mk [] ["__MIXED__"]) "__MIXED__" ∧
      labelOf (TrieNode.mk [] ["__MIXED__"]) = none := by
  refine ⟨⟨?_, ?_, ?_⟩, ?_⟩
  · intro d hd
    simpa [TrieNode.terminal_dbs] using hd
  · intro kc hkc
    simp [TrieNode.children] at hkc
  · left
    simp [TrieNode.terminal_dbs]
  · decide

/-- Claim C10: `annotate_labels` reserves `"__MIXED__"` as an internal
sentinel, so every trie node whose subtree files all belong to a database
key that is literally `"__MIXED__"` gets label `None` rather than that
key; the labeling of claim C3 therefore only holds under the precondition
that no database key equals `"__MIXED__"`. -/
theorem C10_sentinel_collision (n : TrieNode)
    (h : ∀ fd ∈ filesOf n, fd.2 = "__MIXED__") : labelOf n = none :=
  labelOf_none_of_all_sentinel h

/-- Witness for C10 at a concrete one-node trie. -/
theorem C10_sentinel_collision_witness :
    (∀ fd ∈ filesOf (TrieNode.mk [] ["__MIXED__"]), fd.2 = "__MIXED__") ∧
      labelOf (TrieNode.mk [] ["__MIXED__"]) = none :=
  ⟨by decide, C10_sentinel_collision (TrieNode.mk [] ["__MIXED__"]) (by decide)⟩

theorem setAdd_idem (d : String) (ts : List String) :
    setAdd d (setAdd d ts) = setAdd d ts := by
  unfold setAdd
  by_cases h : d ∈ ts
  · simp [h]
  · simp [h]

theorem updateChild_idem (f : TrieNode → TrieNode) (p : String)
    (hff : ∀ c, f (f c) = f c) :
    ∀ cs, updateChild f p (updateChild f p cs) = updateChild f p cs := by
  intro cs
  induction cs with
  | nil =>
    show updateChild f p [(p, f emptyNode)] = [(p, f emptyNode)]
    simp [updateChild, hff]
  | cons kc rest ih =>
    obtain ⟨k', c⟩ := kc
    by_cases h1 : p = k'
    · rw [show updateChild f p ((k', c) :: rest) = (k', f c) :: rest by rw [updateChild]; simp [h1]]
      rw [updateChild]
      simp [h1, hff]
    · by_cases h2 : strLtB p k'
      · rw [show updateChild f p ((k', c) :: rest) = (p, f emptyNode) :: (k', c) :: rest by
          rw [updateChild]; simp [h1, h2]]
        rw [updateChild]
        simp [hff]
      · rw [show updateChild f p ((k', c) :: rest) = (k', c) :: updateChild f p rest by
          rw [updateChild]; simp [h1, h2]]
        rw [updateChild]
        simp [h1, h2, ih]

/-- Claim C7: inserting the same (file, database) pair twice produces the
same trie as inserting it once, hence the same labeling and the same
selection outcome. -/
theorem C7_insert_idempotent (t : TrieNode) (ps : List String) (db : String) :
    insertPath (insertPath t ps db) ps db = insertPath t ps db ∧
    labelOf (insertPath (insertPath t ps db) ps db) = labelOf (insertPath t ps db) ∧
    ∀ parts pl, selectNodes (insertPath (insertPath t ps db) ps db) parts pl =
      selectNodes (insertPath t ps db) parts pl := by
  have hmain : ∀ (ps : List String) (t : TrieNode) (db : String),
      insertPath (insertPath t ps db) ps db = insertPath t ps db := by
    intro ps
    induction ps with
    | nil =>
      intro t db
      obtain ⟨cs, ts⟩ := t
      show TrieNode.mk cs (setAdd db (setAdd db ts)) = TrieNode.mk cs (setAdd db ts)
      rw [setAdd_idem]
    | cons p ps2 ih =>
      intro t db
      obtain ⟨cs, ts⟩ := t
      show TrieNode.mk (updateChild (fun c => insertPath c ps2 db) p
        (updateChild (fun c => insertPath c ps2 db) p cs)) ts = _
      rw [updateChild_idem (fun c => insertPath c ps2 db) p (fun c => ih c db) cs]
      rfl
  refine ⟨hmain ps t db, by rw [hmain ps t db], fun parts pl => by rw [hmain ps t db]⟩

/-- Claim C6 (amended): for every nonempty assignment map in which every
file is assigned to the same single database key, that key not being the
internal sentinel `"__MIXED__"`, labeling followed by selection yields
exactly one boundary selection, at the root (path `""`), non-leaf. -/
theorem C6_single_owner_root (A : List (String × String)) (k : String)
    (hne : A ≠ []) (hall : ∀ fd ∈ A, fd.2 = k) (hk : k ≠ "__MIXED__") :
    selsOf A = [⟨"", false, k⟩] := by
  have hlabel : labelOf (trieOf A) = some k := by
    apply labelOf_of_all_same hk (inhab_trieOf hne)
    intro fd hfd
    rcases mem_filesOf_trieOf.1 hfd with ⟨gd, hgd, heq⟩
    obtain ⟨_, h2⟩ := Prod.mk.injEq .. ▸ heq
    rw [h2]
    exact hall gd hgd
  have hchildren : (trieOf A).children.isEmpty = false := by
    obtain ⟨fd, rest, hA⟩ : ∃ fd rest, A = fd :: rest := by
      cases A with
      | nil => exact absurd rfl hne
      | cons fd rest => exact ⟨fd, rest, rfl⟩
    have hmem : (splitParts fd.1, fd.2) ∈ filesOf (trieOf A) :=
      mem_filesOf_trieOf.2 ⟨fd, by simp [hA], rfl⟩
    obtain ⟨p, ps, hsplit⟩ : ∃ p ps, splitParts fd.1 = p :: ps := by
      cases hs : splitParts fd.1 with
      | nil => exact absurd hs (splitParts_ne_nil fd.1)
      | cons p ps => exact ⟨p, ps, rfl⟩
    rcases htr : trieOf A with ⟨cs, ts⟩
    rw [htr, hsplit] at hmem
    rcases mem_filesOf_mk.1 hmem with ⟨hnil, _⟩ | ⟨k2, c2, F2, hm2, _, _⟩
    · exact absurd hnil (by simp)
    · rw [children_mk]
      cases cs with
      | nil => simp at hm2
      | cons kc rest2 => rfl
  rw [selsOf, selectNodes_eq_map, selParts_emit hlabel (by simp), hchildren]
  rfl

/-- Witness for C6 at a concrete single-database assignment. -/
theorem C6_single_owner_root_witness :
    ([("a/x", "d")] : List (String × String)) ≠ [] ∧
    (∀ fd ∈ [("a/x", "d")], Prod.snd fd = "d") ∧ ("d" : String) ≠ "__MIXED__" ∧
    selsOf [("a/x", "d")] = [⟨"", false, "d"⟩] :=
  ⟨by simp, by decide, by decide,
    C6_single_owner_root [("a/x", "d")] "d" (by simp) (by decide) (by decide)⟩

/-- Counterexample to C6 as stated: if the single shared key is the
internal sentinel `"__MIXED__"`, the compression emits no boundary
selection at all, not one at the root. -/
theorem C6_single_owner_root_cex :
    ([("a", "__MIXED__")] : List (String × String)) ≠ [] ∧
    (∀ fd ∈ [("a", "__MIXED__")], Prod.snd fd = "__MIXED__") ∧
    selsOf [("a", "__MIXED__")] = [] :=
  ⟨by simp, by decide, by decide⟩

/-- Claim C4: `select_nodes` emits a boundary exactly at nodes whose label
is defined and differs from the inherited parent label, stopping descent
there (first conjunct), and on every trie built from an assignment map no
two distinct emitted boundary selections overlap: neither one's path
equals, or is a `/`-separated ancestor of, the other's (second
conjunct). -/
theorem C4_selection_nonoverlap (A : List (String × String)) :
    (∀ (n : TrieNode) (parts : List String) (pl : Option String) (l : String),
      labelOf n = some l → some l ≠ pl →
      selectNodes n parts pl = [⟨joinParts parts, n.children.isEmpty, l⟩]) ∧
    ∀ s1 ∈ selsOf A, ∀ s2 ∈ selsOf A, s1 ≠ s2 → ¬ pathPref s1.path s2.path := by
  constructor
  · intro n parts pl l hl hne
    rw [selectNodes_eq_map, selParts_emit hl hne]
    rfl
  · intro s1 hs1 s2 hs2 hne hpp
    rcases mem_selsOf.1 hs1 with ⟨t1, ht1, he1⟩
    rcases mem_selsOf.1 hs2 with ⟨t2, ht2, he2⟩
    have htne : t1 ≠ t2 := by
      intro hc
      apply hne
      rw [he1, he2, hc]
    cases hroot : labelOf (trieOf A) with
    | some L =>
      rw [selParts_emit hroot (by simp)] at ht1 ht2
      simp at ht1 ht2
      exact htne (ht1.trans ht2.symm)
    | none =>
      obtain ⟨hne1, hsf1⟩ := selParts_root_shape hroot ht1
      obtain ⟨hne2, hsf2⟩ := selParts_root_shape hroot ht2
      have hsp1 : splitParts s1.path = t1.1 := by
        rw [he1]
        exact splitParts_joinParts hne1 hsf1
      have hsp2 : splitParts s2.path = t2.1 := by
        rw [he2]
        exact splitParts_joinParts hne2 hsf2
      rcases hpp with hpp | ⟨r, hr⟩
      · have : t1.1 = t2.1 := by
          rw [← hsp1, ← hsp2, hpp]
        exact selParts_nonoverlap (trieOf A) [] none t1 t2 (keysOK_trieOf A)
          ht1 ht2 htne [] (by rw [this]; simp)
      · have hsplit : splitParts s2.path = splitParts s1.path ++ (splitSl r).map String.mk := by
          show (splitSl s2.path.data).map String.mk = _
          rw [hr, splitSl_append, List.map_append]
          rfl
        rw [hsp1, hsp2] at hsplit
        exact selParts_nonoverlap (trieOf A) [] none t1 t2 (keysOK_trieOf A)
          ht1 ht2 htne ((splitSl r).map String.mk) hsplit

/-- Witness for C4 at a concrete two-database assignment. -/
theorem C4_selection_nonoverlap_witness :
    (⟨"a", true, "d1"⟩ : NodeSelection) ∈ selsOf [("a", "d1"), ("b", "d2")] ∧
    (⟨"b", true, "d2"⟩ : NodeSelection) ∈ selsOf [("a", "d1"), ("b", "d2")] ∧
    (⟨"a", true, "d1"⟩ : NodeSelection) ≠ ⟨"b", true, "d2"⟩ ∧
    ¬ pathPref (NodeSelection.path ⟨"a", true, "d1"⟩) (NodeSelection.path ⟨"b", true, "d2"⟩) :=
  ⟨by decide, by decide, by decide,
    (C4_selection_nonoverlap [("a", "d1"), ("b", "d2")]).2
      ⟨"a", true, "d1"⟩ (by decide) ⟨"b", true, "d2"⟩ (by decide) (by decide)⟩

theorem prefix_comparable {α : Type} :
    ∀ (P Q L : List α), (∃ R, L = P ++ R) → (∃ R, L = Q ++ R) →
      (∃ R, Q = P ++ R) ∨ (∃ R, P = Q ++ R) := by
  intro P
  induction P with
  | nil =>
    intro Q L _ _
    exact Or.inl ⟨Q, rfl⟩
  | cons a P' ih =>
    intro Q L hP hQ
    cases Q with
    | nil => exact Or.inr ⟨a :: P', rfl⟩
    | cons b Q' =>
      rcases hP with ⟨R1, hR1⟩
      rcases hQ with ⟨R2, hR2⟩
      cases L with
      | nil => simp at hR1
      | cons c L' =>
        simp only [List.cons_append, List.cons.injEq] at hR1 hR2
        rcases ih Q' L' ⟨R1, hR1.2⟩ ⟨R2, hR2.2⟩ with ⟨R, hR⟩ | ⟨R, hR⟩
        · refine Or.inl ⟨R, ?_⟩
          have hab : b = a := hR2.1.symm.trans hR1.1
          rw [hab, hR]
          rfl
        · refine Or.inr ⟨R, ?_⟩
          have hab : a = b := hR1.1.symm.trans hR2.1
          rw [hab, hR]
          rfl

theorem match_to_parts {t2 : List String × Bool × String} {f : String}
    (hne2 : t2.1 ≠ []) (hsf2 : ∀ seg ∈ t2.1, '/' ∉ seg.data)
    (hmatch : regexMatches (regexForPath (joinParts t2.1) t2.2.1) f = true) :
    ∃ R, splitParts f = t2.1 ++ R := by
  by_cases hleaf : t2.2.1 = true
  · rw [hleaf] at hmatch
    exact ⟨[], by simp [(matches_leaf_iff hne2 hsf2).1 hmatch]⟩
  · have hf : t2.2.1 = false := by
      revert hleaf
      cases t2.2.1 <;> simp
    rw [hf] at hmatch
    rcases (matches_dir_iff hne2 hsf2).1 hmatch with ⟨R, _, h⟩
    exact ⟨R, h⟩

/-- Claim C5: no rendered boundary pattern is redundant — for every
boundary selection there is a file of its database that is matched by no
other pattern of that database, so removing the selection's pattern
leaves that file unmatched. -/
theorem C5_minimality (A : List (String × String)) :
    ∀ sel ∈ selsOf A, ∃ fd ∈ A, fd.2 = sel.db ∧
      ∀ pat ∈ dbPatterns A sel.db,
        pat ≠ regexForPath sel.path sel.is_file_leaf →
        regexMatches pat fd.1 = false := by
  intro sel hsel
  rcases mem_selsOf.1 hsel with ⟨s, hs, hse⟩
  have hAne : A ≠ [] := by
    intro hA
    rw [hA] at hsel
    have hempty : selsOf ([] : List (String × String)) = [] := by decide
    rw [hempty] at hsel
    simp at hsel
  have hinh := inhab_trieOf hAne
  rcases selParts_witness (trieOf A) [] none s hinh hs with ⟨F, hFmem, hFmatch⟩
  rcases mem_filesOf_trieOf.1 hFmem with ⟨fd, hfd, hFe⟩
  obtain ⟨hF1, hF2⟩ := Prod.mk.injEq .. ▸ hFe
  refine ⟨fd, hfd, by rw [← hF2, hse], ?_⟩
  intro pat hpat hpatne
  by_contra hcon
  have hmatch : regexMatches pat fd.1 = true := by
    revert hcon
    cases regexMatches pat fd.1 <;> simp
  rcases mem_dbPatterns.1 hpat with ⟨sel2, hsel2mem, hsel2db, hpateq⟩
  rcases mem_selsOf.1 hsel2mem with ⟨t2, ht2, he2⟩
  cases hroot : labelOf (trieOf A) with
  | some L =>
    rw [selParts_emit hroot (by simp)] at hs ht2
    simp at hs ht2
    apply hpatne
    rw [hpateq, he2, ht2, ← hs, hse]
  | none =>
    obtain ⟨hne2, hsf2⟩ := selParts_root_shape hroot ht2
    obtain ⟨hne1, hsf1⟩ := selParts_root_shape hroot hs
    have htne : s ≠ t2 := by
      intro hc
      apply hpatne
      rw [hpateq, he2, ← hc, hse]
    have hmpre : ∃ R, splitParts fd.1 = t2.1 ++ R := by
      apply match_to_parts hne2 hsf2
      rw [hpateq, he2] at hmatch
      exact hmatch
    have hspre : ∃ R, splitParts fd.1 = s.1 ++ R := by
      rw [← hF1]
      by_cases hleaf : s.2.1 = true
      · rw [if_pos hleaf] at hFmatch
        exact ⟨[], by simp [← hFmatch]⟩
      · rw [if_neg hleaf] at hFmatch
        rcases hFmatch with ⟨R, _, heq⟩
        exact ⟨R, by simpa using heq⟩
    rcases prefix_comparable s.1 t2.1 (splitParts fd.1) hspre hmpre with ⟨R, hR⟩ | ⟨R, hR⟩
    · exact selParts_nonoverlap (trieOf A) [] none s t2 (keysOK_trieOf A)
        hs ht2 htne R hR
    · exact selParts_nonoverlap (trieOf A) [] none t2 s (keysOK_trieOf A)
        ht2 hs (fun hc => htne hc.symm) R hR

/-- Witness for C5 at a concrete two-database assignment. -/
theorem C5_minimality_witness :
    (⟨"a", true, "d1"⟩ : NodeSelection) ∈ selsOf [("a", "d1"), ("b", "d2")] ∧
    ∃ fd ∈ [("a", "d1"), ("b", "d2")], Prod.snd fd = NodeSelection.db ⟨"a", true, "d1"⟩ ∧
      ∀ pat ∈ dbPatterns [("a", "d1"), ("b", "d2")] (NodeSelection.db ⟨"a", true, "d1"⟩),
        pat ≠ regexForPath (NodeSelection.path ⟨"a", true, "d1"⟩)
          (NodeSelection.is_file_leaf ⟨"a", true, "d1"⟩) →
        regexMatches pat (Prod.fst fd) = false :=
  ⟨by decide, C5_minimality [("a", "d1"), ("b", "d2")] ⟨"a", true, "d1"⟩ (by decide)⟩

theorem dbKeyLe_total (a b : String) : dbKeyLe a b = true ∨ dbKeyLe b a = true := by
  unfold dbKeyLe
  rcases Nat.lt_trichotomy a.length b.length with h | h | h
  · right
    simp [h]
  · rcases strLeB_total a b with h2 | h2
    · left
      simp [h, h2]
    · right
      simp [h, h2]
  · left
    simp [h]

theorem dbKeyLe_trans (a b c : String) (h1 : dbKeyLe a b = true) (h2 : dbKeyLe b c = true) :
    dbKeyLe a c = true := by
  unfold dbKeyLe at h1 h2 ⊢
  simp only [Bool.or_eq_true, Bool.and_eq_true, decide_eq_true_eq, beq_iff_eq] at h1 h2 ⊢
  rcases h1 with h1 | ⟨h1len, h1le⟩
  · rcases h2 with h2 | ⟨h2len, _⟩
    · left
      omega
    · left
      omega
  · rcases h2 with h2 | ⟨h2len, h2le⟩
    · left
      omega
    · right
      exact ⟨by omega, strLeB_trans h1le h2le⟩

theorem sortByLe_head_min {α : Type} (le : α → α → Bool)
    (htot : ∀ a b, le a b = true ∨ le b a = true)
    (htrans : ∀ a b c, le a b = true → le b c = true → le a c = true)
    {l : List α} {h0 : α} {rest : List α} (h : sortByLe le l = h0 :: rest) :
    h0 ∈ l ∧ ∀ d ∈ l, le h0 d = true := by
  have hperm := sortByLe_perm le l
  rw [h] at hperm
  constructor
  · exact hperm.mem_iff.1 (List.mem_cons_self h0 rest)
  · intro d hd
    have hd2 : d ∈ h0 :: rest := hperm.symm.mem_iff.1 hd
    rcases List.mem_cons.1 hd2 with hd2 | hd2
    · rcases htot h0 d with h3 | h3
      · exact h3
      · rw [hd2]
        rcases htot d d with h4 | h4 <;> rw [hd2] at h4 <;> exact h4
    · have hsorted := sortByLe_sorted le htot htrans l
      rw [h] at hsorted
      exact (List.pairwise_cons.1 hsorted).1 d hd2

theorem mem_claimants {claims : List (String × String)} {f d : String} :
    d ∈ claimants claims f ↔ ∃ c ∈ claims, c.1 = f ∧ c.2 = d := by
  rw [claimants, mem_sortedDedup]
  simp only [List.mem_map, List.mem_filter, beq_iff_eq]
  constructor
  · intro ⟨c, ⟨hm, hf⟩, hd⟩
    exact ⟨c, hm, hf, hd⟩
  · intro ⟨c, hm, hf, hd⟩
    exact ⟨c, ⟨hm, hf⟩, hd⟩

theorem claimants_ne_nil {claims : List (String × String)} {f : String}
    (hf : f ∈ claims.map Prod.fst) : claimants claims f ≠ [] := by
  rcases List.mem_map.1 hf with ⟨c, hm, hcf⟩
  exact List.ne_nil_of_mem (mem_claimants.2 ⟨c, hm, hcf, rfl⟩)

theorem lookupA_map_self {α : Type} (g : String → α) (f : String) :
    ∀ l : List String, f ∈ l →
      lookupA f (l.map (fun x => (x, g x))) = some (g f) := by
  intro l
  induction l with
  | nil => intro h; simp at h
  | cons x rest ih =>
    intro h
    show (if f = x then some (g x) else lookupA f (rest.map (fun x => (x, g x)))) = _
    by_cases hfx : f = x
    · rw [if_pos hfx, hfx]
    · rw [if_neg hfx]
      rcases List.mem_cons.1 h with h2 | h2
      · exact absurd h2 hfx
      · exact ih h2

/-- Claim C2: for every file with at least one claimant, `load_assignments`
assigns the claimant of maximal string length, breaking length ties by the
lexicographically smallest key; the chosen key is always one of the file's
claimants.  In particular `"a/b/c"` beats `"a"` and, between `"zeta"` and
`"alpha"`, `"alpha"` is chosen. -/
theorem C2_conflict_tiebreak (claims : List (String × String)) (f : String)
    (hf : f ∈ claims.map Prod.fst) :
    (∃ chosen, lookupA f (loadAssignments claims).1 = some chosen ∧
      chosen ∈ claimants claims f ∧
      (∀ d ∈ claimants claims f, d.length ≤ chosen.length) ∧
      (∀ d ∈ claimants claims f, d.length = chosen.length → strLeB chosen d = true)) ∧
    lookupA "F" (loadAssignments [("F", "a/b/c"), ("F", "a")]).1 = some "a/b/c" ∧
    lookupA "F" (loadAssignments [("F", "zeta"), ("F", "alpha")]).1 = some "alpha" := by
  refine ⟨?_, by decide, by decide⟩
  have hfc : f ∈ claimFiles claims := by
    rw [claimFiles, mem_sortedDedup]
    exact hf
  have hlook : lookupA f (loadAssignments claims).1 =
      some (chooseDb (claimants claims f)) := by
    show lookupA f ((claimFiles claims).map (fun x => (x, chooseDb (claimants claims x)))) = _
    exact lookupA_map_self (fun x => chooseDb (claimants claims x)) f (claimFiles claims) hfc
  obtain ⟨h0, rest, hsort⟩ : ∃ h0 rest, sortByLe dbKeyLe (claimants claims f) = h0 :: rest := by
    cases hs : sortByLe dbKeyLe (claimants claims f) with
    | nil =>
      exfalso
      have := sortByLe_perm dbKeyLe (claimants claims f)
      rw [hs] at this
      exact claimants_ne_nil hf this.symm.eq_nil
    | cons h0 rest => exact ⟨h0, rest, rfl⟩
  have hch : chooseDb (claimants claims f) = h0 := by
    rw [chooseDb, hsort]
    rfl
  obtain ⟨hmem, hmin⟩ := sortByLe_head_min dbKeyLe dbKeyLe_total dbKeyLe_trans hsort
  refine ⟨h0, by rw [hlook, hch], hmem, ?_, ?_⟩
  · intro d hd
    have := hmin d hd
    unfold dbKeyLe at this
    simp only [Bool.or_eq_true, Bool.and_eq_true, decide_eq_true_eq, beq_iff_eq] at this
    rcases this with h | ⟨hlen, _⟩
    · omega
    · omega
  · intro d hd hlen
    have := hmin d hd
    unfold dbKeyLe at this
    simp only [Bool.or_eq_true, Bool.and_eq_true, decide_eq_true_eq, beq_iff_eq] at this
    rcases this with h | ⟨_, hle⟩
    · omega
    · exact hle

/-- Witness for C2 at a concrete conflicting claim set. -/
theorem C2_conflict_tiebreak_witness :
    ("F" : String) ∈ ([("F", "bb"), ("F", "a")] : List (String × String)).map Prod.fst ∧
    ((∃ chosen, lookupA "F" (loadAssignments [("F", "bb"), ("F", "a")]).1 = some chosen ∧
      chosen ∈ claimants [("F", "bb"), ("F", "a")] "F" ∧
      (∀ d ∈ claimants [("F", "bb"), ("F", "a")] "F", d.length ≤ chosen.length) ∧
      (∀ d ∈ claimants [("F", "bb"), ("F", "a")] "F", d.length = chosen.length →
        strLeB chosen d = true)) ∧
    lookupA "F" (loadAssignments [("F", "a/b/c"), ("F", "a")]).1 = some "a/b/c" ∧
    lookupA "F" (loadAssignments [("F", "zeta"), ("F", "alpha")]).1 = some "alpha") :=
  ⟨by decide, C2_conflict_tiebreak [("F", "bb"), ("F", "a")] "F" (by decide)⟩

theorem selsOf_db_mem {A : List (String × String)} {sel : NodeSelection}
    (hsel : sel ∈ selsOf A) : ∃ fd ∈ A, fd.2 = sel.db := by
  rcases mem_selsOf.1 hsel with ⟨s, hs, hse⟩
  have hAne : A ≠ [] := by
    intro hA
    rw [hA] at hs
    have hempty : selParts (trieOf ([] : List (String × String))) [] none = [] := by decide
    rw [hempty] at hs
    simp at hs
  rcases selParts_witness (trieOf A) [] none s (inhab_trieOf hAne) hs with ⟨F, hFmem, _⟩
  rcases mem_filesOf_trieOf.1 hFmem with ⟨fd, hfd, hFe⟩
  obtain ⟨_, hF2⟩ := Prod.mk.injEq .. ▸ hFe
  exact ⟨fd, hfd, by rw [← hF2, hse]⟩

theorem lookupA_append {α : Type} (k : String) (l1 l2 : List (String × α)) :
    lookupA k (l1 ++ l2) =
      match lookupA k l1 with
      | some v => some v
      | none => lookupA k l2 := by
  induction l1 with
  | nil => simp [lookupA]
  | cons kv rest ih =>
    obtain ⟨k', v⟩ := kv
    by_cases h : k = k'
    · simp [lookupA, h]
    · simp [lookupA, h, ih]

theorem lookupA_groupAdd_ne {k k2 : String} (hne : k ≠ k2) (v : String) :
    ∀ acc, lookupA k (groupAdd acc k2 v) = lookupA k acc := by
  intro acc
  induction acc with
  | nil => simp [groupAdd, lookupA, hne]
  | cons kv rest ih =>
    obtain ⟨k', vs⟩ := kv
    by_cases h : k2 = k'
    · simp only [groupAdd, h, if_pos rfl]
      simp only [lookupA]
      rw [if_neg (h ▸ hne), if_neg (h ▸ hne)]
    · simp only [groupAdd, h, if_neg]
      simp only [lookupA]
      by_cases h2 : k = k'
      · rw [if_pos h2, if_pos h2]
      · rw [if_neg h2, if_neg h2]
        exact ih

theorem lookupA_base_none {k : String} (sels : List NodeSelection)
    (hsel : ∀ s ∈ sels, s.db ≠ k) :
    ∀ acc, lookupA k acc = none →
      lookupA k (sels.foldl
        (fun acc s => groupAdd acc s.db (regexForPath s.path s.is_file_leaf)) acc) = none := by
  induction sels with
  | nil => intro acc h; exact h
  | cons s rest ih =>
    intro acc h
    show lookupA k (rest.foldl _ (groupAdd acc s.db (regexForPath s.path s.is_file_leaf))) = none
    apply ih (fun s2 hs2 => hsel s2 (by simp [hs2]))
    rw [lookupA_groupAdd_ne (fun hc => hsel s (by simp) hc.symm) _ acc]
    exact h

theorem lookupA_fold_fallback_preserved {k : String} {vs : List String}
    (fb : String → List String) :
    ∀ (keys : List String) (acc : List (String × List String)),
      lookupA k acc = some vs →
      lookupA k (keys.foldl
        (fun acc k2 => if (lookupA k2 acc).isSome then acc else acc ++ [(k2, fb k2)]) acc) =
        some vs := by
  intro keys
  induction keys with
  | nil => intro acc h; exact h
  | cons k2 rest ih =>
    intro acc h
    show lookupA k (rest.foldl _ (if (lookupA k2 acc).isSome then acc else acc ++ [(k2, fb k2)])) = _
    by_cases h2 : (lookupA k2 acc).isSome
    · rw [if_pos h2]
      exact ih acc h
    · rw [if_neg h2]
      apply ih
      rw [lookupA_append]
      rw [h]
  
theorem lookupA_fold_fallback_adds {k : String} (fb : String → List String) :
    ∀ (keys : List String) (acc : List (String × List String)),
      k ∈ keys → lookupA k acc = none →
      lookupA k (keys.foldl
        (fun acc k2 => if (lookupA k2 acc).isSome then acc else acc ++ [(k2, fb k2)]) acc) =
        some (fb k) := by
  intro keys
  induction keys with
  | nil => intro acc h; simp at h
  | cons k2 rest ih =>
    intro acc hmem h
    show lookupA k (rest.foldl _ (if (lookupA k2 acc).isSome then acc else acc ++ [(k2, fb k2)])) = _
    by_cases hk2 : k = k2
    · subst hk2
      rw [if_neg (by rw [h]; simp)]
      apply lookupA_fold_fallback_preserved
      rw [lookupA_append, h]
      show lookupA k [(k, fb k)] = some (fb k)
      simp [lookupA]
    · have hmem2 : k ∈ rest := by
        rcases List.mem_cons.1 hmem with hc | hc
        · exact absurd hc hk2
        · exact hc
      by_cases h2 : (lookupA k2 acc).isSome
      · rw [if_pos h2]
        exact ih acc hmem2 h
      · rw [if_neg h2]
        apply ih _ hmem2
        rw [lookupA_append, h]
        show lookupA k [(k2, fb k2)] = none
        simp [lookupA, hk2]

theorem lookupA_map_value {α β : Type} (g : α → β) (k : String) :
    ∀ l : List (String × α),
      lookupA k (l.map (fun kv => (kv.1, g kv.2))) = (lookupA k l).map g := by
  intro l
  induction l with
  | nil => simp [lookupA]
  | cons kv rest ih =>
    obtain ⟨k', v⟩ := kv
    by_cases h : k = k'
    · simp [lookupA, h]
    · simp [lookupA, h, ih]

theorem lookupA_eq_none_iff {α : Type} {k : String} :
    ∀ {l : List (String × α)}, lookupA k l = none ↔ k ∉ l.map Prod.fst := by
  intro l
  induction l with
  | nil => simp [lookupA]
  | cons kv rest ih =>
    obtain ⟨k', v⟩ := kv
    by_cases h : k = k'
    · simp [lookupA, h]
    · simp [lookupA, h, ih]

theorem lookupA_eq_some_iff_nodup {α : Type} {k : String} {v : α}
    {l : List (String × α)} (hnd : (l.map Prod.fst).Nodup) :
    lookupA k l = some v ↔ (k, v) ∈ l := by
  induction l with
  | nil => simp [lookupA]
  | cons kv rest ih =>
    obtain ⟨k', v'⟩ := kv
    simp only [List.map_cons, List.nodup_cons] at hnd
    by_cases h : k = k'
    · subst h
      rw [lookupA, if_pos rfl]
      simp only [List.mem_cons]
      constructor
      · intro hv
        left
        rw [Option.some.inj hv]
      · intro hv
        rcases hv with hv | hv
        · obtain ⟨_, h2⟩ := Prod.mk.injEq .. ▸ hv
          rw [h2]
        · exfalso
          exact hnd.1 (List.mem_map.2 ⟨(k, v), hv, rfl⟩)
    · rw [lookupA, if_neg h]
      rw [ih hnd.2]
      simp only [List.mem_cons]
      constructor
      · exact Or.inr
      · intro hv
        rcases hv with hv | hv
        · obtain ⟨h1, _⟩ := Prod.mk.injEq .. ▸ hv
          exact absurd h1 h
        · exact hv

theorem lookupA_perm {α : Type} {k : String} {l1 l2 : List (String × α)}
    (hnd : (l1.map Prod.fst).Nodup) (hperm : l1.Perm l2) :
    lookupA k l1 = lookupA k l2 := by
  have hnd2 : (l2.map Prod.fst).Nodup := (hperm.map Prod.fst).nodup_iff.1 hnd
  cases h1 : lookupA k l1 with
  | some v =>
    rw [(lookupA_eq_some_iff_nodup hnd2).2 (hperm.mem_iff.1 ((lookupA_eq_some_iff_nodup hnd).1 h1))]
  | none =>
    rw [lookupA_eq_none_iff] at h1
    have : k ∉ l2.map Prod.fst := fun hc => h1 ((hperm.map Prod.fst).mem_iff.2 hc)
    rw [lookupA_eq_none_iff.2 this]

theorem mem_keys_groupAdd {x k : String} {v : String} :
    ∀ {acc : List (String × List String)},
      x ∈ (groupAdd acc k v).map Prod.fst ↔ x ∈ acc.map Prod.fst ∨ x = k := by
  intro acc
  induction acc with
  | nil => simp [groupAdd]
  | cons kv rest ih =>
    obtain ⟨k', vs⟩ := kv
    by_cases h : k = k'
    · subst h
      have hg : groupAdd ((k, vs) :: rest) k v = (k, vs ++ [v]) :: rest := by
        simp [groupAdd]
      rw [hg]
      simp only [List.map_cons, List.mem_cons]
      constructor
      · intro hx
        exact Or.inl hx
      · intro hx
        rcases hx with hx | hx
        · exact hx
        · exact Or.inl hx
    · have hg : groupAdd ((k', vs) :: rest) k v = (k', vs) :: groupAdd rest k v := by
        simp [groupAdd, h]
      rw [hg]
      simp only [List.map_cons, List.mem_cons, ih]
      constructor
      · intro hx
        rcases hx with hx | hx | hx
        · exact Or.inl (Or.inl hx)
        · exact Or.inl (Or.inr hx)
        · exact Or.inr hx
      · intro hx
        rcases hx with (hx | hx) | hx
        · exact Or.inl hx
        · exact Or.inr (Or.inl hx)
        · exact Or.inr (Or.inr hx)

theorem groupAdd_keys_nodup {k : String} {v : String} :
    ∀ {acc : List (String × List String)},
      (acc.map Prod.fst).Nodup → ((groupAdd acc k v).map Prod.fst).Nodup := by
  intro acc
  induction acc with
  | nil =>
    intro _
    simp [groupAdd]
  | cons kv rest ih =>
    obtain ⟨k', vs⟩ := kv
    intro hnd
    simp only [List.map_cons, List.nodup_cons] at hnd
    by_cases h : k = k'
    · subst h
      have hg : groupAdd ((k, vs) :: rest) k v = (k, vs ++ [v]) :: rest := by
        simp [groupAdd]
      rw [hg]
      simp only [List.map_cons, List.nodup_cons]
      exact hnd
    · have hg : groupAdd ((k', vs) :: rest) k v = (k', vs) :: groupAdd rest k v := by
        simp [groupAdd, h]
      rw [hg]
      simp only [List.map_cons, List.nodup_cons]
      refine ⟨?_, ih hnd.2⟩
      intro hc
      rcases mem_keys_groupAdd.1 hc with hc | hc
      · exact hnd.1 hc
      · exact h hc.symm

theorem base_keys_nodup (sels : List NodeSelection) :
    ∀ (acc : List (String × List String)), (acc.map Prod.fst).Nodup →
      ((sels.foldl (fun acc s => groupAdd acc s.db (regexForPath s.path s.is_file_leaf))
        acc).map Prod.fst).Nodup := by
  induction sels with
  | nil => intro acc h; exact h
  | cons s rest ih =>
    intro acc h
    exact ih _ (groupAdd_keys_nodup h)

theorem fallback_keys_nodup (fb : String → List String) :
    ∀ (keys : List String) (acc : List (String × List String)),
      (acc.map Prod.fst).Nodup →
      ((keys.foldl (fun acc k2 =>
        if (lookupA k2 acc).isSome then acc else acc ++ [(k2, fb k2)]) acc).map Prod.fst).Nodup := by
  intro keys
  induction keys with
  | nil => intro acc h; exact h
  | cons k2 rest ih =>
    intro acc h
    show ((rest.foldl _ (if (lookupA k2 acc).isSome then acc else acc ++ [(k2, fb k2)])).map Prod.fst).Nodup
    by_cases h2 : (lookupA k2 acc).isSome
    · rw [if_pos h2]
      exact ih acc h
    · rw [if_neg h2]
      apply ih
      rw [List.map_append]
      apply List.Nodup.append h (by simp)
      intro x hx hx2
      simp at hx2
      rw [hx2] at hx
      have : lookupA k2 acc = none := by
        cases hl : lookupA k2 acc with
        | none => rfl
        | some v =>
          rw [hl] at h2
          simp at h2
      exact lookupA_eq_none_iff.1 this hx

theorem keys_map_value {α β : Type} (g : α → β) (l : List (String × α)) :
    (l.map (fun kv => (kv.1, g kv.2))).map Prod.fst = l.map Prod.fst := by
  rw [List.map_map]
  rfl

theorem keys_map_sortdedup (l : List (String × List String)) :
    (l.map (fun kv => (kv.1, sortByLe dbKeyLe kv.2.dedup))).map Prod.fst =
      l.map Prod.fst := by
  rw [List.map_map]
  rfl

theorem lookupA_map_sortdedup (k : String) :
    ∀ l : List (String × List String),
      lookupA k (l.map (fun kv => (kv.1, sortByLe dbKeyLe kv.2.dedup))) =
        (lookupA k l).map (fun vs => sortByLe dbKeyLe vs.dedup) := by
  intro l
  induction l with
  | nil => simp [lookupA]
  | cons kv rest ih =>
    obtain ⟨k', vs⟩ := kv
    by_cases h : k = k'
    · simp [lookupA, h]
    · simp [lookupA, h, ih]

/-- Claim C8: a database whose key is among the discovered database keys
but which has zero entries in the pattern groups produced from the
selections (no boundary selection carries its key — in particular a
database with no assigned file at all, such as one whose document was
malformed) receives exactly one fallback pattern in `build_fragments`:
the prefix pattern over its own escaped key. -/
theorem C8_fallback_emission (dbKeys : List String) (A : List (String × String))
    (k : String) (hk : k ∈ dbKeys) (hsel : ∀ s ∈ selsOf A, s.db ≠ k) :
    lookupA k (buildFragments dbKeys A) = some ["^" ++ reEscape k ++ "/.*"] := by
  have hbf : buildFragments dbKeys A =
      sortByLe (fun a b => strLeB a.1 b.1)
        ((dbKeys.foldl (fun acc k =>
            if (lookupA k acc).isSome then acc
            else acc ++ [(k, ["^" ++ reEscape k ++ "/.*"])])
          ((selsOf A).foldl
            (fun acc s => groupAdd acc s.db (regexForPath s.path s.is_file_leaf)) [])).map
          (fun kv => (kv.1, sortByLe dbKeyLe kv.2.dedup))) := rfl
  rw [hbf]
  have hb0 : lookupA k ((selsOf A).foldl
      (fun acc s => groupAdd acc s.db (regexForPath s.path s.is_file_leaf))
      ([] : List (String × List String))) = none :=
    lookupA_base_none (selsOf A) hsel [] rfl
  have hb1 : lookupA k (dbKeys.foldl (fun acc k =>
      if (lookupA k acc).isSome then acc
      else acc ++ [(k, ["^" ++ reEscape k ++ "/.*"])])
      ((selsOf A).foldl
        (fun acc s => groupAdd acc s.db (regexForPath s.path s.is_file_leaf)) [])) =
      some ["^" ++ reEscape k ++ "/.*"] :=
    lookupA_fold_fallback_adds (fun k2 => ["^" ++ reEscape k2 ++ "/.*"]) dbKeys _ hk hb0
  have hnd1 : (((dbKeys.foldl (fun acc k =>
      if (lookupA k acc).isSome then acc
      else acc ++ [(k, ["^" ++ reEscape k ++ "/.*"])])
      ((selsOf A).foldl
        (fun acc s => groupAdd acc s.db (regexForPath s.path s.is_file_leaf)) [])).map
        (fun kv => (kv.1, sortByLe dbKeyLe kv.2.dedup))).map Prod.fst).Nodup := by
    rw [keys_map_sortdedup]
    exact fallback_keys_nodup (fun k2 => ["^" ++ reEscape k2 ++ "/.*"]) dbKeys _
      (base_keys_nodup (selsOf A) [] (by simp))
  rw [← lookupA_perm hnd1 (sortByLe_perm (fun a b => strLeB a.1 b.1) _).symm]
  rw [lookupA_map_sortdedup k _, hb1]
  have hd : (["^" ++ reEscape k ++ "/.*"] : List String).dedup =
      ["^" ++ reEscape k ++ "/.*"] := by simp
  show some (sortByLe dbKeyLe (["^" ++ reEscape k ++ "/.*"].dedup)) = _
  rw [hd]
  rfl

/-- Witness for C8 at a concrete database that has an assigned file yet
contributes zero selections: in `[("a", "d1"), ("a/b", "d2")]` the node
of `"a"` is mixed, so only `"d2"` gets a boundary selection and `"d1"`
receives its fallback. -/
theorem C8_fallback_emission_witness :
    ("d1" : String) ∈ ["d1", "d2"] ∧
    (∀ s ∈ selsOf [("a", "d1"), ("a/b", "d2")], NodeSelection.db s ≠ "d1") ∧
    lookupA "d1" (buildFragments ["d1", "d2"] [("a", "d1"), ("a/b", "d2")]) =
      some ["^" ++ reEscape "d1" ++ "/.*"] :=
  ⟨by simp, by decide,
    C8_fallback_emission ["d1", "d2"] [("a", "d1"), ("a/b", "d2")] "d1"
      (by simp) (by decide)⟩

/-- Claim C9: the resolver is a pure function of the claim set — the
(assignment map, conflict map) pair is invariant under any reordering of
the input claims (the only freedom I/O order has), and therefore the
rendered output text through `build_fragments` and `render_clangd` is
byte-identical as well. -/
theorem C9_determinism (c1 c2 : List (String × String)) (h : c1.Perm c2) :
    loadAssignments c1 = loadAssignments c2 ∧
    ∀ (dbKeys excludedPrefixes backgroundSkips : List String),
      renderClangd (buildFragments dbKeys (loadAssignments c1).1) (loadAssignments c1).2
        excludedPrefixes backgroundSkips =
      renderClangd (buildFragments dbKeys (loadAssignments c2).1) (loadAssignments c2).2
        excludedPrefixes backgroundSkips := by
  have hfiles : claimFiles c1 = claimFiles c2 :=
    sortedDedup_perm_invariant (h.map Prod.fst)
  have hclaim : ∀ f, claimants c1 f = claimants c2 f := by
    intro f
    exact sortedDedup_perm_invariant ((h.filter (fun c => c.1 == f)).map Prod.snd)
  have hla : loadAssignments c1 = loadAssignments c2 := by
    unfold loadAssignments
    rw [hfiles]
    have h1 : (fun f => (f, chooseDb (claimants c1 f))) =
        (fun f => (f, chooseDb (claimants c2 f))) :=
      funext fun f => by rw [hclaim f]
    have h2 : (fun f => decide (1 < (claimants c1 f).length)) =
        (fun f => decide (1 < (claimants c2 f).length)) :=
      funext fun f => by rw [hclaim f]
    have h3 : (fun f => (f, claimants c1 f)) = (fun f => (f, claimants c2 f)) :=
      funext fun f => by rw [hclaim f]
    rw [h1, h2, h3]
  exact ⟨hla, fun dbKeys ex bg => by rw [hla]⟩

/-- Witness for C9 at a concrete pair of reordered claim lists. -/
theorem C9_determinism_witness :
    ([("f", "a"), ("f", "b")] : List (String × String)).Perm [("f", "b"), ("f", "a")] ∧
    (loadAssignments [("f", "a"), ("f", "b")] = loadAssignments [("f", "b"), ("f", "a")] ∧
    ∀ (dbKeys excludedPrefixes backgroundSkips : List String),
      renderClangd (buildFragments dbKeys (loadAssignments [("f", "a"), ("f", "b")]).1)
        (loadAssignments [("f", "a"), ("f", "b")]).2 excludedPrefixes backgroundSkips =
      renderClangd (buildFragments dbKeys (loadAssignments [("f", "b"), ("f", "a")]).1)
        (loadAssignments [("f", "b"), ("f", "a")]).2 excludedPrefixes backgroundSkips) :=
  ⟨List.Perm.swap ("f", "b") ("f", "a") [],
    C9_determinism [("f", "a"), ("f", "b")] [("f", "b"), ("f", "a")]
      (List.Perm.swap ("f", "b") ("f", "a") [])⟩

/-- Witness for C1 at a concrete two-database assignment. -/
theorem C1_coverage_exclusivity_witness :
    (([("a/x", "d1"), ("b/y", "d2")] : List (String × String)).map Prod.fst).Nodup ∧
    (∀ fd ∈ ([("a/x", "d1"), ("b/y", "d2")] : List (String × String)),
      ∀ gd ∈ ([("a/x", "d1"), ("b/y", "d2")] : List (String × String)),
        Prod.fst fd ≠ Prod.fst gd →
        ¬ segPref (splitParts (Prod.fst fd)) (splitParts (Prod.fst gd))) ∧
    (∀ fd ∈ ([("a/x", "d1"), ("b/y", "d2")] : List (String × String)),
      Prod.snd fd ≠ "__MIXED__") ∧
    (∃ fd ∈ ([("a/x", "d1"), ("b/y", "d2")] : List (String × String)),
      ∃ gd ∈ ([("a/x", "d1"), ("b/y", "d2")] : List (String × String)),
        Prod.snd fd ≠ Prod.snd gd) ∧
    ∀ fd ∈ ([("a/x", "d1"), ("b/y", "d2")] : List (String × String)),
      (∃ pat ∈ dbPatterns [("a/x", "d1"), ("b/y", "d2")] (Prod.snd fd),
        regexMatches pat (Prod.fst fd) = true) ∧
      (∀ D, D ≠ Prod.snd fd →
        ∀ pat ∈ dbPatterns [("a/x", "d1"), ("b/y", "d2")] D,
          regexMatches pat (Prod.fst fd) = false) :=
  ⟨by decide, by decide, by decide, by decide,
    C1_coverage_exclusivity [("a/x", "d1"), ("b/y", "d2")]
      (by decide) (by decide) (by decide) (by decide)⟩

/-- Counterexample to C1 as stated (coverage for every assignment map):
three explicit assignment maps on which some file is matched by none of
its own database's rendered patterns — (1) a single-database map (the root
is selected and renders `^/.*`, which matches no relative path), (2) a map
in which one file's path is a segment-prefix of another's (the boundary's
directory pattern misses the file at the boundary itself), and (3) a map
using the internal sentinel `"__MIXED__"` as a database key (its subtree
is labeled `None` and contributes no pattern at all). -/
theorem C1_coverage_exclusivity_cex :
    (∃ fd ∈ ([("a/x", "d0"), ("b/y", "d0")] : List (String × String)),
      ∀ pat ∈ dbPatterns [("a/x", "d0"), ("b/y", "d0")] (Prod.snd fd),
        regexMatches pat (Prod.fst fd) = false) ∧
    (∃ fd ∈ ([("a", "d1"), ("a/b", "d1"), ("c", "d2")] : List (String × String)),
      ∀ pat ∈ dbPatterns [("a", "d1"), ("a/b", "d1"), ("c", "d2")] (Prod.snd fd),
        regexMatches pat (Prod.fst fd) = false) ∧
    (∃ fd ∈ ([("a", "__MIXED__"), ("b", "d2")] : List (String × String)),
      ∀ pat ∈ dbPatterns [("a", "__MIXED__"), ("b", "d2")] (Prod.snd fd),
        regexMatches pat (Prod.fst fd) = false) := by
  refine ⟨?_, ?_, ?_⟩ <;> decide
